import Mathlib

/-!
Verification of the symbolic string-model subsystem (`models.py`):
`_find_zero`, `_find_zeros`, `is_NULL`, `not_NULL`, `strcmp`, `strlen`,
`strcpy`.  The byte/expression abstraction, the solver oracle and the
CPU/address-space collaborators are external to the source file and are
modelled from the specification.
-/

namespace Models

/-- Modelled from the spec: the comparison kinds `Equal` / `NotEqual` of the
boolean expression layer (spec section 3, "Expression node"). -/
inductive CmpKind where
  | eq
  | ne
deriving DecidableEq

/-- Modelled from the spec: bit-vector expression nodes (spec section 3):
`Constant(width, value)`, `Variable(width=8, identity)` (a symbolic memory
byte), `ZeroExtend(target-width, inner)`, `Subtract` at a given width, and
`IfThenElse` whose boolean condition is a comparison of two bit-vector
expressions.  Constants carry Python integers, hence `Int`. -/
inductive Expr where
  | const (w : Nat) (v : Int)
  | var (id : Nat)
  | zext (w : Nat) (e : Expr)
  | sub (w : Nat) (a b : Expr)
  | ite (w : Nat) (ck : CmpKind) (c1 c2 t f : Expr)
deriving DecidableEq

/-- Modelled from the spec: a boolean formula is a comparison of two
bit-vector expressions; constraint sets are lists of these. -/
structure BoolExpr where
  ck : CmpKind
  a : Expr
  b : Expr
deriving DecidableEq

/-- Width of an expression (spec: width is decided at construction). -/
def Expr.width : Expr → Nat
  | .const w _ => w
  | .var _ => 8
  | .zext w _ => w
  | .sub w _ _ => w
  | .ite w _ _ _ _ _ => w

/-- Denotation of a comparison kind on machine values. -/
def cmpDenote : CmpKind → Nat → Nat → Bool
  | .eq, x, y => x == y
  | .ne, x, y => x != y

/-- Evaluation of an expression under an assignment of the symbolic byte
variables.  A variable of width 8 takes its assigned value modulo 256;
constants and subtraction are reduced modulo `2 ^ width`. -/
def evalE (ρ : Nat → Nat) : Expr → Nat
  | .const w v => (v % ((2 : Int) ^ w)).toNat
  | .var id => ρ id % 256
  | .zext _ e => evalE ρ e
  | .sub w a b => (((evalE ρ a : Int) - (evalE ρ b : Int)) % ((2 : Int) ^ w)).toNat
  | .ite _ ck c1 c2 t f => if cmpDenote ck (evalE ρ c1) (evalE ρ c2) then evalE ρ t else evalE ρ f

/-- Evaluation of a boolean formula under an assignment. -/
def evalB (ρ : Nat → Nat) (b : BoolExpr) : Bool :=
  cmpDenote b.ck (evalE ρ b.a) (evalE ρ b.b)

/-- An assignment satisfies a constraint set when every formula in it
evaluates to true. -/
def satC (ρ : Nat → Nat) (constrs : List BoolExpr) : Bool :=
  constrs.all (evalB ρ)

/-- Variables occurring in an expression. -/
def varsE : Expr → List Nat
  | .const _ _ => []
  | .var id => [id]
  | .zext _ e => varsE e
  | .sub _ a b => varsE a ++ varsE b
  | .ite _ _ c1 c2 t f => varsE c1 ++ varsE c2 ++ varsE t ++ varsE f

/-- Variables occurring in a boolean formula. -/
def varsB (b : BoolExpr) : List Nat :=
  varsE b.a ++ varsE b.b

/-- All assignments over a finite variable list: every listed variable gets a
value below 256, every other variable gets 0. -/
def assignsFor : List Nat → List (Nat → Nat)
  | [] => [fun _ => 0]
  | v :: vs =>
      (assignsFor vs).flatMap fun ρ =>
        (List.range 256).map fun val => fun x => if x = v then val else ρ x

/-- Modelled from the spec: the sole solver primitive
`can_be_true(constraint_set, boolean_expr)` — "is it possible that the
expression holds, given the set".  Executable by enumerating assignments of
the finitely many byte variables involved; `canBeTrue_iff_exists` proves it
equivalent to the semantic feasibility statement. -/
def canBeTrue (constrs : List BoolExpr) (cond : BoolExpr) : Bool :=
  (assignsFor (((constrs.flatMap varsB) ++ varsB cond).dedup)).any fun ρ =>
    satC ρ constrs && evalB ρ cond

theorem evalE_agree (e : Expr) (ρ ρ' : Nat → Nat)
    (h : ∀ v ∈ varsE e, ρ v % 256 = ρ' v % 256) : evalE ρ e = evalE ρ' e := by
  induction e with
  | const w v => rfl
  | var id => simpa [evalE, varsE] using h id (by simp [varsE])
  | zext w e ih =>
      simp only [evalE]
      exact ih (fun v hv => h v (by simpa [varsE] using hv))
  | sub w a b iha ihb =>
      simp only [evalE]
      rw [iha (fun v hv => h v (by simp [varsE]; exact Or.inl hv)),
        ihb (fun v hv => h v (by simp [varsE]; exact Or.inr hv))]
  | ite w ck c1 c2 t f ih1 ih2 iht ihf =>
      simp only [evalE]
      rw [ih1 (fun v hv => h v (by simp [varsE]; tauto)),
        ih2 (fun v hv => h v (by simp [varsE]; tauto)),
        iht (fun v hv => h v (by simp [varsE]; tauto)),
        ihf (fun v hv => h v (by simp [varsE]; tauto))]

theorem evalB_agree (b : BoolExpr) (ρ ρ' : Nat → Nat)
    (h : ∀ v ∈ varsB b, ρ v % 256 = ρ' v % 256) : evalB ρ b = evalB ρ' b := by
  unfold evalB
  rw [evalE_agree b.a ρ ρ' (fun v hv => h v (by simp [varsB]; exact Or.inl hv)),
    evalE_agree b.b ρ ρ' (fun v hv => h v (by simp [varsB]; exact Or.inr hv))]

theorem satC_agree (cs : List BoolExpr) (ρ ρ' : Nat → Nat)
    (h : ∀ v ∈ cs.flatMap varsB, ρ v % 256 = ρ' v % 256) : satC ρ cs = satC ρ' cs := by
  unfold satC
  induction cs with
  | nil => rfl
  | cons c cs ih =>
      simp only [List.all_cons]
      have h1 : ∀ v ∈ varsB c, ρ v % 256 = ρ' v % 256 := fun v hv =>
        h v (by rw [List.flatMap_cons]; exact List.mem_append.mpr (Or.inl hv))
      have h2 : ∀ v ∈ cs.flatMap varsB, ρ v % 256 = ρ' v % 256 := fun v hv =>
        h v (by rw [List.flatMap_cons]; exact List.mem_append.mpr (Or.inr hv))
      rw [evalB_agree c ρ ρ' h1, ih h2]

theorem assignsFor_complete (vs : List Nat) (ρ : Nat → Nat) :
    ∃ ρ' ∈ assignsFor vs, ∀ v ∈ vs, ρ' v = ρ v % 256 := by
  induction vs with
  | nil => exact ⟨fun _ => 0, by simp [assignsFor], by simp⟩
  | cons v vs ih =>
      obtain ⟨ρ'', hmem, hags⟩ := ih
      refine ⟨fun x => if x = v then ρ v % 256 else ρ'' x, ?_, ?_⟩
      · simp only [assignsFor, List.mem_flatMap, List.mem_map]
        exact ⟨ρ'', hmem, ρ v % 256, by simp [Nat.mod_lt _ (by norm_num : 0 < 256)], rfl⟩
      · intro u hu
        rcases List.mem_cons.mp hu with h | h
        · simp [h]
        · by_cases huv : u = v
          · simp [huv]
          · simpa [huv] using hags u h

theorem canBeTrue_iff_exists (constrs : List BoolExpr) (cond : BoolExpr) :
    canBeTrue constrs cond = true ↔
      ∃ ρ : Nat → Nat, satC ρ constrs = true ∧ evalB ρ cond = true := by
  constructor
  · intro h
    obtain ⟨ρ, _, hρ⟩ := List.any_eq_true.mp h
    rw [Bool.and_eq_true] at hρ
    exact ⟨ρ, hρ.1, hρ.2⟩
  · rintro ⟨ρ, hs, hc⟩
    obtain ⟨ρ', hmem, hags⟩ :=
      assignsFor_complete (((constrs.flatMap varsB) ++ varsB cond).dedup) ρ
    have hag : ∀ v ∈ (constrs.flatMap varsB) ++ varsB cond, ρ' v % 256 = ρ v % 256 := by
      intro v hv
      rw [hags v (List.mem_dedup.mpr hv)]
      exact Nat.mod_mod_of_dvd _ dvd_rfl
    refine List.any_eq_true.mpr ⟨ρ', hmem, ?_⟩
    rw [Bool.and_eq_true]
    refine ⟨?_, ?_⟩
    · rw [satC_agree constrs ρ' ρ
        (fun v hv => hag v (List.mem_append.mpr (Or.inl hv)))]
      exact hs
    · rw [evalB_agree cond ρ' ρ
        (fun v hv => hag v (List.mem_append.mpr (Or.inr hv)))]
      exact hc

/-- Modelled from the spec: a value is either a concrete Python integer or a
symbolic expression (spec section 3, "Byte value"). -/
inductive Value where
  | concrete (v : Int)
  | sym (e : Expr)
deriving DecidableEq

/-- Modelled from the spec: the runtime `issymbolic` predicate on values. -/
def issymbolic : Value → Bool
  | .concrete _ => false
  | .sym _ => true

/-- Casting a value to an expression of the given width, as the bit-vector
operator layer does with Python-integer operands. -/
def toExpr (w : Nat) : Value → Expr
  | .concrete v => .const w v
  | .sym e => e

/-- A condition is either a concrete Python boolean or a boolean formula,
mirroring what a comparison of two values produces. -/
inductive CondVal where
  | cbool (b : Bool)
  | cexpr (c : BoolExpr)
deriving DecidableEq

/-- Modelled from the spec: the inequality comparison of two values at a
width.  Two concrete operands give a concrete boolean; otherwise a symbolic
`NotEqual` formula is built. -/
def vne (w : Nat) : Value → Value → CondVal
  | .concrete a, .concrete b => .cbool (a ≠ b)
  | x, y => .cexpr ⟨.ne, toExpr w x, toExpr w y⟩

/-- Modelled from the spec: subtraction of two values.  Two concrete Python
integers subtract exactly; otherwise a symbolic subtraction node of the
given width is built. -/
def vsub (w : Nat) : Value → Value → Value
  | .concrete a, .concrete b => .concrete (a - b)
  | x, y => .sym (.sub w (toExpr w x) (toExpr w y))

/-- Modelled from the spec: the `ZEXTEND(x, size)` operator — a concrete
integer is masked to the target width, a symbolic expression is wrapped in a
zero-extension node. -/
def ZEXTEND (x : Value) (size : Nat) : Value :=
  match x with
  | .concrete v => .concrete (v % ((2 : Int) ^ size))
  | .sym e => .sym (.zext size e)

/-- Modelled from the spec: the `ITEBV(size, cond, t, f)` constructor — a
concrete condition selects a branch outright, a symbolic condition builds an
if-then-else node of the given width. -/
def ITEBV (size : Nat) : CondVal → Value → Value → Value
  | .cbool true, t, _ => t
  | .cbool false, _, f => f
  | .cexpr c, t, f => .sym (.ite size c.ck c.a c.b (toExpr size t) (toExpr size f))

/-- Evaluation of a value at a width under an assignment: concrete Python
integers are read back modulo `2 ^ w`, symbolic expressions are evaluated. -/
def evalV (w : Nat) (ρ : Nat → Nat) : Value → Nat
  | .concrete v => (v % ((2 : Int) ^ w)).toNat
  | .sym e => evalE ρ e

/-- Modelled from the spec: the address space / CPU collaborator.  One byte
value per integer address, plus the architecture pointer width
`address_bit_size`. -/
structure Cpu where
  address_bit_size : Nat
  mem : Int → Value

/-- Modelled from the spec: `read(addr, width)`; the string models only ever
read single bytes (width 8), which is one cell. -/
def Cpu.read_int (cpu : Cpu) (addr : Int) (_w : Nat) : Value :=
  cpu.mem addr

/-- Modelled from the spec: `write(addr, value, width)` for a single byte;
immediately visible to subsequent reads. -/
def Cpu.write_int (cpu : Cpu) (addr : Int) (v : Value) (_w : Nat) : Cpu :=
  ⟨cpu.address_bit_size, fun a => if a = addr then v else cpu.mem a⟩

/-- Modelled from the spec: an execution state owns one address space and
one constraint set. -/
structure State where
  cpu : Cpu
  constraints : List BoolExpr

/-- Well-formedness of one memory byte: a concrete byte value lies in
`[0, 256)`; a symbolic byte is a width-8 expression with coherent widths. -/
def ExprWF : Expr → Prop
  | .const _ _ => True
  | .var _ => True
  | .zext w e => ExprWF e ∧ e.width ≤ w
  | .sub _ a b => ExprWF a ∧ ExprWF b
  | .ite w _ c1 c2 t f => ExprWF c1 ∧ ExprWF c2 ∧ ExprWF t ∧ ExprWF f ∧
      t.width ≤ w ∧ f.width ≤ w

/-- Well-formedness of a byte value stored in memory. -/
def ValueWF8 : Value → Prop
  | .concrete v => 0 ≤ v ∧ v < 256
  | .sym e => ExprWF e ∧ e.width = 8

/-- Well-formedness of a whole address space: every cell holds a byte. -/
def CpuWF (cpu : Cpu) : Prop := ∀ a : Int, ValueWF8 (cpu.mem a)

theorem evalE_lt_width (ρ : Nat → Nat) (e : Expr) (h : ExprWF e) :
    evalE ρ e < 2 ^ e.width := by
  induction e with
  | const w v =>
      have h2 : (0 : Int) < 2 ^ w := by positivity
      have hcast : (((2 : Nat) ^ w : Nat) : Int) = (2 : Int) ^ w := by push_cast; ring
      simp only [evalE, Expr.width]
      have hlt := Int.emod_lt_of_pos v h2
      have hge := Int.emod_nonneg v (ne_of_gt h2)
      omega
  | var id =>
      simp only [evalE, Expr.width]
      exact Nat.mod_lt _ (by norm_num)
  | zext w e ih =>
      obtain ⟨h1, h2⟩ := h
      calc evalE ρ (.zext w e) = evalE ρ e := rfl
        _ < 2 ^ e.width := ih h1
        _ ≤ 2 ^ w := Nat.pow_le_pow_right (by norm_num) h2
  | sub w a b iha ihb =>
      have h2 : (0 : Int) < 2 ^ w := by positivity
      have hcast : (((2 : Nat) ^ w : Nat) : Int) = (2 : Int) ^ w := by push_cast; ring
      simp only [evalE, Expr.width]
      have hlt := Int.emod_lt_of_pos ((evalE ρ a : Int) - (evalE ρ b : Int)) h2
      have hge := Int.emod_nonneg ((evalE ρ a : Int) - (evalE ρ b : Int)) (ne_of_gt h2)
      omega
  | ite w ck c1 c2 t f ih1 ih2 iht ihf =>
      obtain ⟨_, _, ht, hf, htw, hfw⟩ := h
      simp only [evalE, Expr.width]
      by_cases hc : cmpDenote ck (evalE ρ c1) (evalE ρ c2)
      · simp only [hc, if_true]
        exact lt_of_lt_of_le (iht ht) (Nat.pow_le_pow_right (by norm_num) htw)
      · simp only [hc, if_false]
        exact lt_of_lt_of_le (ihf hf) (Nat.pow_le_pow_right (by norm_num) hfw)

theorem evalV8_lt (ρ : Nat → Nat) (v : Value) (h : ValueWF8 v) :
    evalV 8 ρ v < 256 := by
  match v with
  | .concrete c =>
      obtain ⟨h1, h2⟩ := h
      simp only [evalV]
      have hb : ((2 : Int) ^ (8 : Nat)) = 256 := by norm_num
      rw [hb, Int.emod_eq_of_lt h1 h2]
      omega
  | .sym e =>
      obtain ⟨h1, h2⟩ := h
      have := evalE_lt_width ρ e h1
      rw [h2] at this
      simpa [evalV] using this

/-- The width-8 constant 0 used by the byte comparisons of the models. -/
def c0 : Expr := .const 8 0

/-- `is_NULL(byte, constrs)`: a concrete byte equal to 0, or a symbolic byte
for which being non-zero is infeasible. -/
def is_NULL (byte : Value) (constrs : List BoolExpr) : Bool :=
  match byte with
  | .sym e => !canBeTrue constrs ⟨.ne, e, c0⟩
  | .concrete v => v == 0

/-- `not_NULL(byte, constrs)`: a concrete byte different from 0, or a
symbolic byte for which being zero is infeasible. -/
def not_NULL (byte : Value) (constrs : List BoolExpr) : Bool :=
  match byte with
  | .sym e => !canBeTrue constrs ⟨.eq, e, c0⟩
  | .concrete v => v != 0

/-- The scanning loop of `_find_zero`, made total with a fuel argument:
`none` means the loop did not stop within `fuel` iterations (the Python loop
is unbounded and diverges in that case). -/
def findZeroGo (cpu : Cpu) (constrs : List BoolExpr) (ptr : Int) :
    Nat → Nat → Option Nat
  | 0, _ => none
  | fuel + 1, offset =>
    match cpu.read_int (ptr + (offset : Int)) 8 with
    | .sym e =>
        if canBeTrue constrs ⟨.ne, e, c0⟩ then findZeroGo cpu constrs ptr fuel (offset + 1)
        else some offset
    | .concrete v =>
        if v = 0 then some offset
        else findZeroGo cpu constrs ptr fuel (offset + 1)

/-- `_find_zero(cpu, constrs, ptr)`: offset of the first byte from `ptr`
that is 0 or constrained to be 0. -/
def _find_zero (cpu : Cpu) (constrs : List BoolExpr) (ptr : Int) (fuel : Nat) : Option Nat :=
  findZeroGo cpu constrs ptr fuel 0

/-- The scanning loop of `_find_zeros`, with the accumulated `can_be_zero`
list and a fuel argument. -/
def findZerosGo (cpu : Cpu) (constrs : List BoolExpr) (ptr : Int) :
    Nat → Nat → List Nat → Option (List Nat)
  | 0, _, _ => none
  | fuel + 1, offset, acc =>
    match cpu.read_int (ptr + (offset : Int)) 8 with
    | .sym e =>
        let acc' := if canBeTrue constrs ⟨.eq, e, c0⟩ then acc ++ [offset] else acc
        if canBeTrue constrs ⟨.ne, e, c0⟩ then findZerosGo cpu constrs ptr fuel (offset + 1) acc'
        else some acc'
    | .concrete v =>
        if v = 0 then some (acc ++ [offset])
        else findZerosGo cpu constrs ptr fuel (offset + 1) acc

/-- `_find_zeros(cpu, constrs, ptr)`: all offsets from `ptr` of bytes that
can be 0, up to and including the first byte that is 0 or must be 0. -/
def _find_zeros (cpu : Cpu) (constrs : List BoolExpr) (ptr : Int) (fuel : Nat) :
    Option (List Nat) :=
  findZerosGo cpu constrs ptr fuel 0 []

/-- One iteration of the `strcmp` walk at a given offset, transforming the
carried result exactly as the loop body does. -/
def strcmpStep (cpu : Cpu) (s1 s2 : Int) (offset : Nat) (ret : Option Value) : Option Value :=
  let s1char := ZEXTEND (cpu.read_int (s1 + (offset : Int)) 8) cpu.address_bit_size
  let s2char := ZEXTEND (cpu.read_int (s2 + (offset : Int)) 8) cpu.address_bit_size
  if issymbolic s1char || issymbolic s2char then
    match ret with
    | none => some (vsub cpu.address_bit_size s1char s2char)
    | some r =>
        if !issymbolic r && (r == .concrete 0) then
          some (vsub cpu.address_bit_size s1char s2char)
        else
          some (ITEBV cpu.address_bit_size (vne cpu.address_bit_size s1char s2char)
            (vsub cpu.address_bit_size s1char s2char) r)
  else
    if s1char ≠ s2char then some (vsub cpu.address_bit_size s1char s2char)
    else
      match ret with
      | none => some (.concrete 0)
      | some r => some r

/-- The `strcmp` walk over offsets `k, k-1, ..., 0`. -/
def strcmpGo (cpu : Cpu) (s1 s2 : Int) : Nat → Option Value → Option Value
  | 0, ret => strcmpStep cpu s1 s2 0 ret
  | k + 1, ret => strcmpGo cpu s1 s2 k (strcmpStep cpu s1 s2 (k + 1) ret)

/-- `strcmp(state, s1, s2)`: symbolic strcmp model.  The outer `none` means
the zero scan did not terminate within the fuel; the `Except` layer is the
`ConcretizeArgument` signal with its integer payload; the innermost
`Option Value` is the Python return value, which may be `None`. -/
def strcmp (state : State) (s1 s2 : Value) (fuel : Nat) :
    Option (State × Except Nat (Option Value)) :=
  let cpu := state.cpu
  match s1 with
  | .sym _ => some (state, .error 1)
  | .concrete a1 =>
    match s2 with
    | .sym _ => some (state, .error 2)
    | .concrete a2 =>
      match _find_zero cpu state.constraints a1 fuel with
      | none => none
      | some s1_zero_idx =>
        match _find_zero cpu state.constraints a2 fuel with
        | none => none
        | some s2_zero_idx =>
          some (state, .ok (strcmpGo cpu a1 a2 (min s1_zero_idx s2_zero_idx) none))

/-- One iteration of the `strlen` walk at a given offset. -/
def strlenStep (cpu : Cpu) (s : Int) (offset : Nat) (ret : Value) : Value :=
  match cpu.read_int (s + (offset : Int)) 8 with
  | .sym e => ITEBV cpu.address_bit_size (.cexpr ⟨.eq, e, c0⟩) (.concrete offset) ret
  | .concrete _ => ret

/-- The `strlen` walk over offsets `k-1, ..., 0`. -/
def strlenGo (cpu : Cpu) (s : Int) : Nat → Value → Value
  | 0, ret => ret
  | k + 1, ret => strlenGo cpu s k (strlenStep cpu s k ret)

/-- `strlen(state, s)`: symbolic strlen model. -/
def strlen (state : State) (s : Value) (fuel : Nat) :
    Option (State × Except Nat Value) :=
  match s with
  | .sym _ => some (state, .error 1)
  | .concrete a =>
    match _find_zero state.cpu state.constraints a fuel with
    | none => none
    | some zero_idx =>
        some (state, .ok (strlenGo state.cpu a zero_idx (.concrete zero_idx)))

/-- Outcome of a `strcpy` invocation: the returned pointer, the
`ConcretizeArgument` signal, or the `IndexError` a `zeros[-1]` access on an
empty list raises. -/
inductive StrcpyOut where
  | ok (ret : Value)
  | concretize (i : Nat)
  | indexError
deriving DecidableEq

/-- The concrete copy loop of `strcpy` (phase 1): copy bytes while they are
provably non-null; stops returning the memory, the advanced destination and
source pointers, and the byte that stopped the loop. -/
def strcpyLoop (constrs : List BoolExpr) :
    Nat → Cpu → Int → Int → Option (Cpu × Int × Int × Value)
  | 0, _, _, _ => none
  | fuel + 1, cpu, dst, src =>
    let c := cpu.read_int src 8
    if not_NULL c constrs then
      strcpyLoop constrs fuel (cpu.write_int dst c 8) (dst + 1) (src + 1)
    else some (cpu, dst, src, c)

/-- The ambiguous-tail loop of `strcpy` (phase 3) over offsets
`o, o-1, ..., 0`, with the mutable candidate list `zeros`.  The boolean is
false when the `zeros[-1]` access found an empty list (Python
`IndexError`). -/
def strcpyTail (constrs : List BoolExpr) (dst src : Int) :
    Nat → Cpu → List Nat → Cpu × Bool
  | o, cpu, zeros =>
    match zeros.getLast? with
    | none => (cpu, false)
    | some last =>
      let src_val := cpu.read_int (src + (o : Int)) 8
      let dst_val := cpu.read_int (dst + (o : Int)) 8
      let sz : Value × List Nat :=
        if last = o then
          (ITEBV 8 (vne 8 src_val (.concrete 0)) src_val (.concrete 0), zeros.dropLast)
        else (src_val, zeros)
      let src_val' := sz.2.foldr
        (fun (zero : Nat) sv => ITEBV 8 (vne 8 (cpu.read_int (src + (zero : Int)) 8) (.concrete 0))
          sv dst_val) sz.1
      let cpu' := cpu.write_int (dst + (o : Int)) src_val' 8
      match o with
      | 0 => (cpu', true)
      | o' + 1 => strcpyTail constrs dst src o' cpu' sz.2

/-- `strcpy(state, dst, src)`: symbolic strcpy model.  `none` means one of
the unbounded scans did not terminate within the fuel. -/
def strcpy (state : State) (dst src : Value) (fuel : Nat) :
    Option (State × StrcpyOut) :=
  match src with
  | .sym _ => some (state, .concretize 1)
  | .concrete srcA =>
    match dst with
    | .sym _ => some (state, .concretize 2)
    | .concrete dstA =>
      let cpu := state.cpu
      let constrs := state.constraints
      match strcpyLoop constrs fuel cpu dstA srcA with
      | none => none
      | some (cpu1, dst1, src1, c) =>
        if is_NULL c constrs then
          some (⟨cpu1.write_int dst1 (.concrete 0) 8, constrs⟩, .ok dst)
        else
          match _find_zeros cpu1 constrs src1 fuel with
          | none => none
          | some zeros =>
            match zeros.getLast? with
            | none => some (⟨cpu1, constrs⟩, .indexError)
            | some null =>
              match strcpyTail constrs dst1 src1 null cpu1 zeros with
              | (cpu2, true) => some (⟨cpu2, constrs⟩, .ok dst)
              | (cpu2, false) => some (⟨cpu2, constrs⟩, .indexError)

theorem evalB_ne_iff (ρ : Nat → Nat) (e : Expr) :
    evalB ρ ⟨.ne, e, c0⟩ = true ↔ evalE ρ e ≠ 0 := by
  simp [evalB, cmpDenote, c0, evalE]

theorem evalB_eq_iff (ρ : Nat → Nat) (e : Expr) :
    evalB ρ ⟨.eq, e, c0⟩ = true ↔ evalE ρ e = 0 := by
  simp [evalB, cmpDenote, c0, evalE]

/-- Under a satisfiable constraint set the two classifiers cannot both hold:
any satisfying assignment gives the byte a single value, which is either
zero or non-zero, making the corresponding feasibility query true. -/
theorem classifiers_not_both (b : Value) (cs : List BoolExpr) (ρ : Nat → Nat)
    (hρ : satC ρ cs = true) : ¬(is_NULL b cs = true ∧ not_NULL b cs = true) := by
  rintro ⟨h1, h2⟩
  match b with
  | .concrete v => simp [is_NULL, not_NULL] at h1 h2; omega
  | .sym e =>
      simp only [is_NULL, not_NULL, Bool.not_eq_true'] at h1 h2
      by_cases hz : evalE ρ e = 0
      · have : canBeTrue cs ⟨.eq, e, c0⟩ = true :=
          (canBeTrue_iff_exists cs _).mpr ⟨ρ, hρ, (evalB_eq_iff ρ e).mpr hz⟩
        rw [this] at h2; exact Bool.noConfusion h2
      · have : canBeTrue cs ⟨.ne, e, c0⟩ = true :=
          (canBeTrue_iff_exists cs _).mpr ⟨ρ, hρ, (evalB_ne_iff ρ e).mpr hz⟩
        rw [this] at h1; exact Bool.noConfusion h1

/-- A byte that is definitely null evaluates to zero under every satisfying
assignment. -/
theorem is_NULL_eval (b : Value) (cs : List BoolExpr) (ρ : Nat → Nat)
    (hρ : satC ρ cs = true) (h : is_NULL b cs = true) : evalV 8 ρ b = 0 := by
  match b with
  | .concrete v =>
      simp only [is_NULL, beq_iff_eq] at h
      simp [evalV, h]
  | .sym e =>
      simp only [is_NULL, Bool.not_eq_true'] at h
      by_contra hne
      have : canBeTrue cs ⟨.ne, e, c0⟩ = true :=
        (canBeTrue_iff_exists cs _).mpr ⟨ρ, hρ, (evalB_ne_iff ρ e).mpr (by simpa [evalV] using hne)⟩
      rw [this] at h; exact Bool.noConfusion h

/-- A well-formed byte that is definitely non-null evaluates to non-zero
under every satisfying assignment. -/
theorem not_NULL_eval (b : Value) (cs : List BoolExpr) (ρ : Nat → Nat)
    (hwf : ValueWF8 b) (hρ : satC ρ cs = true) (h : not_NULL b cs = true) :
    evalV 8 ρ b ≠ 0 := by
  match b with
  | .concrete v =>
      obtain ⟨h1, h2⟩ := hwf
      simp only [not_NULL, bne_iff_ne, ne_eq] at h
      have hb : ((2 : Int) ^ (8 : Nat)) = 256 := by norm_num
      simp only [evalV, hb, Int.emod_eq_of_lt h1 h2, ne_eq]
      omega
  | .sym e =>
      simp only [not_NULL, Bool.not_eq_true'] at h
      intro hz
      have : canBeTrue cs ⟨.eq, e, c0⟩ = true :=
        (canBeTrue_iff_exists cs _).mpr ⟨ρ, hρ, (evalB_eq_iff ρ e).mpr (by simpa [evalV] using hz)⟩
      rw [this] at h; exact Bool.noConfusion h

theorem findZeroGo_spec (cpu : Cpu) (cs : List BoolExpr) (ptr : Int) :
    ∀ fuel offset z, findZeroGo cpu cs ptr fuel offset = some z →
      offset ≤ z ∧
      (∀ i, offset ≤ i → i < z → is_NULL (cpu.mem (ptr + (i : Int))) cs = false) ∧
      is_NULL (cpu.mem (ptr + (z : Int))) cs = true := by
  intro fuel
  induction fuel with
  | zero => intro offset z h; exact absurd h (by simp [findZeroGo])
  | succ fuel ih =>
      intro offset z h
      rw [findZeroGo] at h
      revert h
      match hb : cpu.read_int (ptr + (offset : Int)) 8 with
      | .sym e =>
          rw [Cpu.read_int] at hb
          by_cases hc : canBeTrue cs ⟨.ne, e, c0⟩
          · simp only [hc, if_true]
            intro h
            obtain ⟨hle, hlt, hz⟩ := ih (offset + 1) z h
            refine ⟨by omega, ?_, hz⟩
            intro i hi1 hi2
            rcases Nat.lt_or_ge i (offset + 1) with h' | h'
            · have : i = offset := by omega
              subst this
              simp [hb, is_NULL, hc]
            · exact hlt i h' hi2
          · simp only [hc, if_false]
            intro h
            obtain rfl : offset = z := by simpa using h
            refine ⟨le_rfl, by omega, ?_⟩
            simp only [hb, is_NULL, Bool.not_eq_eq_eq_not, Bool.not_true]
            simpa using hc
      | .concrete v =>
          rw [Cpu.read_int] at hb
          by_cases hv : v = 0
          · simp only [hv, if_pos rfl]
            intro h
            obtain rfl : offset = z := by simpa using h
            refine ⟨le_rfl, by omega, ?_⟩
            simp [hb, is_NULL, hv]
          · simp only [if_neg hv]
            intro h
            obtain ⟨hle, hlt, hz⟩ := ih (offset + 1) z h
            refine ⟨by omega, ?_, hz⟩
            intro i hi1 hi2
            rcases Nat.lt_or_ge i (offset + 1) with h' | h'
            · have : i = offset := by omega
              subst this
              simp [hb, is_NULL, hv]
            · exact hlt i h' hi2

theorem findZeroGo_intro (cpu : Cpu) (cs : List BoolExpr) (ptr : Int) :
    ∀ (fuel offset n : Nat), offset ≤ n → n - offset < fuel →
      (∀ i, offset ≤ i → i < n → is_NULL (cpu.mem (ptr + (i : Int))) cs = false) →
      is_NULL (cpu.mem (ptr + (n : Int))) cs = true →
      findZeroGo cpu cs ptr fuel offset = some n := by
  intro fuel
  induction fuel with
  | zero => intro offset n _ h; omega
  | succ fuel ih =>
      intro offset n hle hfuel hlt hn
      rw [findZeroGo]
      rcases Nat.eq_or_lt_of_le hle with rfl | hlt'
      · revert hn
        match hb : cpu.read_int (ptr + (offset : Int)) 8 with
        | .sym e =>
            rw [Cpu.read_int] at hb; rw [hb]
            intro hn
            simp only [is_NULL, Bool.not_eq_eq_eq_not, Bool.not_true] at hn
            simp [hn]
        | .concrete v =>
            rw [Cpu.read_int] at hb; rw [hb]
            intro hn
            simp only [is_NULL, beq_iff_eq] at hn
            simp [hn]
      · have hcur : is_NULL (cpu.mem (ptr + (offset : Int))) cs = false :=
          hlt offset le_rfl hlt'
        have hnext := ih (offset + 1) n (by omega) (by omega)
          (fun i h1 h2 => hlt i (by omega) h2) hn
        revert hcur
        match hb : cpu.read_int (ptr + (offset : Int)) 8 with
        | .sym e =>
            rw [Cpu.read_int] at hb; rw [hb]
            intro hcur
            simp only [is_NULL, Bool.not_eq_false'] at hcur
            simp [hcur, hnext]
        | .concrete v =>
            rw [Cpu.read_int] at hb; rw [hb]
            intro hcur
            simp only [is_NULL, beq_eq_false_iff_ne, ne_eq] at hcur
            simp [hcur, hnext]

/-- If the byte at offset `n` is the first definitely-null byte, the scan
returns `n` (for any sufficient fuel). -/
theorem _find_zero_intro (cpu : Cpu) (cs : List BoolExpr) (ptr : Int) (fuel n : Nat)
    (hfuel : n < fuel)
    (hlt : ∀ i, i < n → is_NULL (cpu.mem (ptr + (i : Int))) cs = false)
    (hn : is_NULL (cpu.mem (ptr + (n : Int))) cs = true) :
    _find_zero cpu cs ptr fuel = some n :=
  findZeroGo_intro cpu cs ptr fuel 0 n (Nat.zero_le n) (by omega)
    (fun i _ h2 => hlt i h2) hn

/-- Whatever the scan returns is the offset of the first definitely-null
byte. -/
theorem _find_zero_spec (cpu : Cpu) (cs : List BoolExpr) (ptr : Int) (fuel z : Nat)
    (h : _find_zero cpu cs ptr fuel = some z) :
    (∀ i, i < z → is_NULL (cpu.mem (ptr + (i : Int))) cs = false) ∧
    is_NULL (cpu.mem (ptr + (z : Int))) cs = true := by
  obtain ⟨_, h2, h3⟩ := findZeroGo_spec cpu cs ptr fuel 0 z h
  exact ⟨fun i hi => h2 i (Nat.zero_le i) hi, h3⟩

/-- If no byte from the pointer is ever definitely null, the scan does not
terminate: it returns `none` for every fuel. -/
theorem findZeroGo_none (cpu : Cpu) (cs : List BoolExpr) (ptr : Int)
    (h : ∀ i : Nat, is_NULL (cpu.mem (ptr + (i : Int))) cs = false) :
    ∀ fuel offset, findZeroGo cpu cs ptr fuel offset = none := by
  intro fuel
  induction fuel with
  | zero => intro offset; rfl
  | succ fuel ih =>
      intro offset
      rw [findZeroGo]
      have hcur := h offset
      revert hcur
      match hb : cpu.read_int (ptr + (offset : Int)) 8 with
      | .sym e =>
          rw [Cpu.read_int] at hb; rw [hb]
          intro hcur
          simp only [is_NULL, Bool.not_eq_false'] at hcur
          simp [hcur, ih]
      | .concrete v =>
          rw [Cpu.read_int] at hb; rw [hb]
          intro hcur
          simp only [is_NULL, beq_eq_false_iff_ne, ne_eq] at hcur
          simp [hcur, ih]

/-- The result of the scan is unique: any two characterized stopping offsets
agree. -/
theorem first_null_unique (cpu : Cpu) (cs : List BoolExpr) (ptr : Int) (n m : Nat)
    (hltn : ∀ i, i < n → is_NULL (cpu.mem (ptr + (i : Int))) cs = false)
    (hn : is_NULL (cpu.mem (ptr + (n : Int))) cs = true)
    (hltm : ∀ i, i < m → is_NULL (cpu.mem (ptr + (i : Int))) cs = false)
    (hm : is_NULL (cpu.mem (ptr + (m : Int))) cs = true) : n = m := by
  rcases Nat.lt_trichotomy n m with h | h | h
  · rw [hltm n h] at hn; exact Bool.noConfusion hn
  · exact h
  · rw [hltn m h] at hm; exact Bool.noConfusion hm

/-- The condition under which `_find_zeros` records an offset: a symbolic
byte that can be zero, or a concrete zero byte. -/
def appendCond (cpu : Cpu) (cs : List BoolExpr) (ptr : Int) (o : Nat) : Bool :=
  match cpu.mem (ptr + (o : Int)) with
  | .sym e => canBeTrue cs ⟨.eq, e, c0⟩
  | .concrete v => v == 0

theorem findZerosGo_spec (cpu : Cpu) (cs : List BoolExpr) (ptr : Int) :
    ∀ (fuel offset : Nat) (acc zs : List Nat),
      findZerosGo cpu cs ptr fuel offset acc = some zs →
      ∃ N, offset ≤ N ∧
        (∀ i, offset ≤ i → i < N → is_NULL (cpu.mem (ptr + (i : Int))) cs = false) ∧
        is_NULL (cpu.mem (ptr + (N : Int))) cs = true ∧
        zs = acc ++ (List.range' offset (N + 1 - offset)).filter (appendCond cpu cs ptr) := by
  intro fuel
  induction fuel with
  | zero => intro offset acc zs h; exact absurd h (by simp [findZerosGo])
  | succ fuel ih =>
      intro offset acc zs h
      rw [findZerosGo] at h
      revert h
      match hb : cpu.read_int (ptr + (offset : Int)) 8 with
      | .sym e =>
          rw [Cpu.read_int] at hb
          have hap : appendCond cpu cs ptr offset = canBeTrue cs ⟨.eq, e, c0⟩ := by
            simp [appendCond, hb]
          by_cases hc : canBeTrue cs ⟨.ne, e, c0⟩
          · simp only [hc, if_true]
            intro h
            obtain ⟨N, hle, hlt, hN, hzs⟩ := ih (offset + 1)
              (if canBeTrue cs ⟨.eq, e, c0⟩ then acc ++ [offset] else acc) zs h
            refine ⟨N, by omega, ?_, hN, ?_⟩
            · intro i hi1 hi2
              rcases Nat.lt_or_ge i (offset + 1) with h' | h'
              · have : i = offset := by omega
                subst this
                simp [hb, is_NULL, hc]
              · exact hlt i h' hi2
            · have hr : List.range' offset (N + 1 - offset) =
                  offset :: List.range' (offset + 1) (N - offset) := by
                have : N + 1 - offset = (N - offset) + 1 := by omega
                rw [this, List.range'_succ]
              rw [hr, List.filter_cons, hzs, hap]
              by_cases he : canBeTrue cs ⟨.eq, e, c0⟩
              · simp [he, List.append_assoc]
              · simp [he]
          · simp only [hc, if_false, Option.some.injEq]
            intro h
            refine ⟨offset, le_rfl, by omega, ?_, ?_⟩
            · simp only [hb, is_NULL, Bool.not_eq_eq_eq_not, Bool.not_true]
              simpa using hc
            · have hr : offset + 1 - offset = 1 := by omega
              rw [hr, List.range'_one, List.filter_cons, hap]
              by_cases he : canBeTrue cs ⟨.eq, e, c0⟩
              · simp [he] at h ⊢; exact h.symm
              · simp [he] at h ⊢; exact h.symm
      | .concrete v =>
          rw [Cpu.read_int] at hb
          have hap : appendCond cpu cs ptr offset = (v == 0) := by
            simp [appendCond, hb]
          by_cases hv : v = 0
          · simp only [hv, if_pos rfl, Option.some.injEq]
            intro h
            refine ⟨offset, le_rfl, by omega, ?_, ?_⟩
            · simp [hb, is_NULL, hv]
            · have hr : offset + 1 - offset = 1 := by omega
              rw [hr, List.range'_one, List.filter_cons, hap]
              simp [hv] at h ⊢
              exact h.symm
          · simp only [if_neg hv]
            intro h
            obtain ⟨N, hle, hlt, hN, hzs⟩ := ih (offset + 1) acc zs h
            refine ⟨N, by omega, ?_, hN, ?_⟩
            · intro i hi1 hi2
              rcases Nat.lt_or_ge i (offset + 1) with h' | h'
              · have : i = offset := by omega
                subst this
                simp [hb, is_NULL, hv]
              · exact hlt i h' hi2
            · have hr : List.range' offset (N + 1 - offset) =
                  offset :: List.range' (offset + 1) (N - offset) := by
                have : N + 1 - offset = (N - offset) + 1 := by omega
                rw [this, List.range'_succ]
              rw [hr, List.filter_cons, hap, hzs]
              simp [hv]

/-- Characterization of `_find_zeros`: there is a stopping offset `N` (the
first definitely-null byte), and the returned list is exactly the offsets
up to `N` whose byte can be zero. -/
theorem _find_zeros_spec (cpu : Cpu) (cs : List BoolExpr) (ptr : Int) (fuel : Nat)
    (zs : List Nat) (h : _find_zeros cpu cs ptr fuel = some zs) :
    ∃ N : Nat, (∀ i : Nat, i < N → is_NULL (cpu.mem (ptr + (i : Int))) cs = false) ∧
      is_NULL (cpu.mem (ptr + (N : Int))) cs = true ∧
      zs = (List.range (N + 1)).filter (appendCond cpu cs ptr) := by
  obtain ⟨N, _, hlt, hN, hzs⟩ := findZerosGo_spec cpu cs ptr fuel 0 [] zs h
  refine ⟨N, fun i hi => hlt i (Nat.zero_le i) hi, hN, ?_⟩
  rw [hzs, List.nil_append, List.range_eq_range']
  norm_num

/-- Under a satisfiable constraint set the stopping byte is itself a
candidate: a definitely-null byte can be zero. -/
theorem is_NULL_appendCond (cpu : Cpu) (cs : List BoolExpr) (ptr : Int) (o : Nat)
    (ρ : Nat → Nat) (hρ : satC ρ cs = true)
    (h : is_NULL (cpu.mem (ptr + (o : Int))) cs = true) :
    appendCond cpu cs ptr o = true := by
  unfold appendCond
  revert h
  match hb : cpu.mem (ptr + (o : Int)) with
  | .concrete v => intro h; simpa [is_NULL] using h
  | .sym e =>
      intro h
      simp only [is_NULL, Bool.not_eq_eq_eq_not, Bool.not_true] at h
      have hz : evalE ρ e = 0 := by
        by_contra hne
        have : canBeTrue cs ⟨.ne, e, c0⟩ = true :=
          (canBeTrue_iff_exists cs _).mpr ⟨ρ, hρ, (evalB_ne_iff ρ e).mpr hne⟩
        rw [this] at h; exact Bool.noConfusion h
      exact (canBeTrue_iff_exists cs _).mpr ⟨ρ, hρ, (evalB_eq_iff ρ e).mpr hz⟩

theorem strcpyLoop_exit (cs : List BoolExpr) :
    ∀ (fuel : Nat) (cpu : Cpu) (dst src : Int) (cpu1 : Cpu) (dst1 src1 : Int) (c : Value),
      strcpyLoop cs fuel cpu dst src = some (cpu1, dst1, src1, c) →
      c = cpu1.read_int src1 8 ∧ not_NULL c cs = false := by
  intro fuel
  induction fuel with
  | zero => intro cpu dst src cpu1 dst1 src1 c h; exact absurd h (by simp [strcpyLoop])
  | succ fuel ih =>
      intro cpu dst src cpu1 dst1 src1 c h
      rw [strcpyLoop] at h
      by_cases hc : not_NULL (cpu.read_int src 8) cs
      · simp only [hc, if_true] at h
        exact ih _ _ _ _ _ _ _ h
      · simp only [hc, if_false] at h
        cases h
        exact ⟨rfl, by simpa using hc⟩

theorem strcpyTail_ok (cs : List BoolExpr) (dst src : Int) :
    ∀ (o : Nat) (cpu : Cpu) (zeros : List Nat), 0 ∈ zeros →
      (strcpyTail cs dst src o cpu zeros).2 = true := by
  intro o
  induction o with
  | zero =>
      intro cpu zeros h0
      have hne : zeros ≠ [] := List.ne_nil_of_mem h0
      rw [strcpyTail]
      match hL : zeros.getLast? with
      | none => exact absurd (List.getLast?_eq_none_iff.mp hL) hne
      | some last => rfl
  | succ o ih =>
      intro cpu zeros h0
      have hne : zeros ≠ [] := List.ne_nil_of_mem h0
      rw [strcpyTail]
      match hL : zeros.getLast? with
      | none => exact absurd (List.getLast?_eq_none_iff.mp hL) hne
      | some last =>
          simp only
          by_cases hl : last = o + 1
          · simp only [hl, if_pos rfl]
            apply ih
            have hgl : zeros.getLast hne = o + 1 := by
              rw [List.getLast?_eq_getLast zeros hne] at hL
              injection hL with h'
              rw [h', hl]
            have hsplit : zeros.dropLast ++ [o + 1] = zeros := by
              rw [← hgl]
              exact List.dropLast_append_getLast hne
            have := h0
            rw [← hsplit] at this
            rcases List.mem_append.mp this with h | h
            · exact h
            · simp at h
          · simp only [if_neg hl]
            exact ih _ _ h0

/-- If the byte at the scanned pointer is ambiguous (neither definitely
non-null nor definitely null), offset 0 is recorded first, so a terminating
`_find_zeros` returns a list beginning with 0. -/
theorem find_zeros_ambiguous (cpu : Cpu) (cs : List BoolExpr) (ptr : Int) (fuel : Nat)
    (zs : List Nat)
    (hnn : not_NULL (cpu.read_int ptr 8) cs = false)
    (hin : is_NULL (cpu.read_int ptr 8) cs = false)
    (h : _find_zeros cpu cs ptr fuel = some zs) :
    zs ≠ [] ∧ zs.head? = some 0 ∧ 0 ∈ zs := by
  rw [Cpu.read_int] at hnn hin
  match hb : cpu.mem ptr with
  | .concrete v =>
      rw [hb] at hnn hin
      simp only [not_NULL, bne_eq_false_iff_eq] at hnn
      rw [hnn] at hin
      simp [is_NULL] at hin
  | .sym e =>
      rw [hb] at hnn hin
      simp only [not_NULL, Bool.not_eq_false'] at hnn
      simp only [is_NULL, Bool.not_eq_false'] at hin
      match fuel with
      | 0 => exact absurd h (by simp [_find_zeros, findZerosGo])
      | f + 1 =>
          rw [_find_zeros, findZerosGo] at h
          simp only [Cpu.read_int, Nat.cast_zero, add_zero] at h
          rw [hb] at h
          simp only [hnn, hin, if_true, List.nil_append] at h
          obtain ⟨N, _, _, _, hform⟩ := findZerosGo_spec cpu cs ptr f 1 [0] zs h
          rw [hform]
          simp

/-- C10: whenever `strcpy` reaches the ambiguous-terminator phase, the byte
that stopped the copy loop can be zero, so `_find_zeros` records offset 0
first and returns a non-empty list; consequently the `zeros[-1]` and
`zeros.pop()` accesses never fail, i.e. `strcpy` never raises `IndexError`. -/
theorem C10_no_index_error (state : State) (dst src : Value) (fuel : Nat) :
    (∀ (cpu : Cpu) (cs : List BoolExpr) (ptr : Int) (zs : List Nat),
        not_NULL (cpu.read_int ptr 8) cs = false →
        is_NULL (cpu.read_int ptr 8) cs = false →
        _find_zeros cpu cs ptr fuel = some zs →
        zs ≠ [] ∧ zs.head? = some 0) ∧
    (∀ st' : State, strcpy state dst src fuel ≠ some (st', .indexError)) := by
  constructor
  · intro cpu cs ptr zs hnn hin h
    obtain ⟨h1, h2, _⟩ := find_zeros_ambiguous cpu cs ptr fuel zs hnn hin h
    exact ⟨h1, h2⟩
  · intro st' h
    revert h
    cases src with
    | sym e => simp [strcpy]
    | concrete srcA =>
      cases dst with
      | sym e => simp [strcpy]
      | concrete dstA =>
        simp only [strcpy]
        cases hl : strcpyLoop state.constraints fuel state.cpu dstA srcA with
        | none => simp
        | some q =>
          obtain ⟨cpu1, dst1, src1, c⟩ := q
          obtain ⟨hc, hcn⟩ := strcpyLoop_exit state.constraints fuel
            state.cpu dstA srcA cpu1 dst1 src1 c hl
          rcases hN : is_NULL c state.constraints with _ | _
          · simp only [hN, Bool.false_eq_true, if_false]
            cases hz : _find_zeros cpu1 state.constraints src1 fuel with
            | none => simp
            | some zeros =>
              obtain ⟨hne, _, h0⟩ := find_zeros_ambiguous cpu1 state.constraints src1 fuel
                zeros (hc ▸ hcn) (hc ▸ hN) hz
              match hgl : zeros.getLast? with
              | none => exact absurd (List.getLast?_eq_none_iff.mp hgl) hne
              | some null =>
                have hok := strcpyTail_ok state.constraints dst1 src1 null cpu1 zeros h0
                match ht : strcpyTail state.constraints dst1 src1 null cpu1 zeros with
                | (cpu2, b) =>
                  rw [ht] at hok
                  simp only at hok
                  subst hok
                  simp [hgl, ht]
          · simp [hN]

/-- Witness for C10 at a concrete ambiguous input. -/
theorem C10_witness :
    ([0, 1] ≠ ([] : List Nat) ∧ ([0, 1] : List Nat).head? = some 0) ∧
    strcpy ⟨⟨64, fun a => if a = 100 then .sym (.var 0)
        else if a = 101 then .concrete 0 else .concrete 5⟩, []⟩
      (.concrete 200) (.concrete 100) 10 ≠
      some (⟨⟨64, fun a => if a = 100 then .sym (.var 0)
        else if a = 101 then .concrete 0 else .concrete 5⟩, []⟩, .indexError) := by
  constructor
  · exact (C10_no_index_error ⟨⟨64, fun a => if a = 100 then .sym (.var 0)
        else if a = 101 then .concrete 0 else .concrete 5⟩, []⟩
        (.concrete 200) (.concrete 100) 10).1
      ⟨64, fun a => if a = 100 then .sym (.var 0)
        else if a = 101 then .concrete 0 else .concrete 5⟩ [] 100 [0, 1]
      (by set_option maxRecDepth 20000 in decide)
      (by set_option maxRecDepth 20000 in decide)
      (by set_option maxRecDepth 20000 in decide)
  · exact (C10_no_index_error ⟨⟨64, fun a => if a = 100 then .sym (.var 0)
        else if a = 101 then .concrete 0 else .concrete 5⟩, []⟩
        (.concrete 200) (.concrete 100) 10).2 _

/-- C6: `_find_zero` returns exactly the offset of the first definitely-null
byte (concrete zero, or symbolic with non-zero infeasible) provided every
earlier byte is not definitely null, and it never terminates when no offset
ever holds a definitely-null byte. -/
theorem C6_find_zero_semantics (cpu : Cpu) (cs : List BoolExpr) (ptr : Int) :
    (∀ (n fuel : Nat),
        (∀ i : Nat, i < n → is_NULL (cpu.mem (ptr + (i : Int))) cs = false) →
        is_NULL (cpu.mem (ptr + (n : Int))) cs = true →
        n < fuel →
        _find_zero cpu cs ptr fuel = some n) ∧
    ((∀ i : Nat, is_NULL (cpu.mem (ptr + (i : Int))) cs = false) →
      ∀ fuel : Nat, _find_zero cpu cs ptr fuel = none) :=
  ⟨fun n fuel hlt hn hfuel => _find_zero_intro cpu cs ptr fuel n hfuel hlt hn,
   fun h fuel => findZeroGo_none cpu cs ptr h fuel 0⟩

/-- Witness for C6: a zero at offset 0 is found at once; an all-ones memory
makes the scan return `none` at every fuel. -/
theorem C6_witness :
    _find_zero ⟨64, fun _ => .concrete 0⟩ [] 0 3 = some 0 ∧
    _find_zero ⟨64, fun _ => .concrete 1⟩ [] 0 5 = none :=
  ⟨(C6_find_zero_semantics ⟨64, fun _ => .concrete 0⟩ [] 0).1 0 3
      (fun i hi => absurd hi (Nat.not_lt_zero i)) (by decide) (by omega),
   (C6_find_zero_semantics ⟨64, fun _ => .concrete 1⟩ [] 0).2 (fun i => rfl) 5⟩

/-- C4 (amended): under a satisfiable constraint set, `is_NULL` and
`not_NULL` are never both true for any byte value. -/
theorem C4_classifier_exclusive (b : Value) (cs : List BoolExpr) (ρ : Nat → Nat)
    (hρ : satC ρ cs = true) : ¬(is_NULL b cs = true ∧ not_NULL b cs = true) :=
  classifiers_not_both b cs ρ hρ

/-- Witness for C4 at a concrete byte and the empty (satisfiable)
constraint set. -/
theorem C4_witness :
    satC (fun _ => 0) [] = true ∧
    ¬(is_NULL (.sym (.var 0)) [] = true ∧ not_NULL (.sym (.var 0)) [] = true) :=
  ⟨rfl, C4_classifier_exclusive (.sym (.var 0)) [] (fun _ => 0) rfl⟩

/-- Counterexample for C4 as stated: under an unsatisfiable constraint set
(`x = 0` and `x = 1`) both feasibility queries fail, so both classifiers
return true on the symbolic byte `x`. -/
theorem C4_counterexample :
    is_NULL (.sym (.var 0)) [⟨.eq, .var 0, .const 8 0⟩, ⟨.eq, .var 0, .const 8 1⟩] = true ∧
    not_NULL (.sym (.var 0)) [⟨.eq, .var 0, .const 8 0⟩, ⟨.eq, .var 0, .const 8 1⟩] = true := by
  constructor
  · set_option maxRecDepth 40000 in decide
  · set_option maxRecDepth 40000 in decide

/-- C5 (amended): under a satisfiable constraint set, a terminating
`_find_zeros` returns a non-empty strictly increasing list of offsets whose
last element is the `_find_zero` result on the same inputs. -/
theorem C5_scan_monotone (cpu : Cpu) (cs : List BoolExpr) (ptr : Int)
    (fuel fuel2 : Nat) (zs : List Nat) (z : Nat) (ρ : Nat → Nat)
    (hρ : satC ρ cs = true)
    (hzs : _find_zeros cpu cs ptr fuel = some zs)
    (hz : _find_zero cpu cs ptr fuel2 = some z) :
    zs ≠ [] ∧ List.Pairwise (· < ·) zs ∧ zs.getLast? = some z := by
  obtain ⟨N, hlt, hN, hform⟩ := _find_zeros_spec cpu cs ptr fuel zs hzs
  obtain ⟨hlt', hz'⟩ := _find_zero_spec cpu cs ptr fuel2 z hz
  have hNz : N = z := first_null_unique cpu cs ptr N z hlt hN hlt' hz'
  subst hNz
  have hap : appendCond cpu cs ptr N = true := is_NULL_appendCond cpu cs ptr N ρ hρ hN
  have hsplit : zs = (List.range N).filter (appendCond cpu cs ptr) ++ [N] := by
    rw [hform, List.range_succ, List.filter_append]
    simp [hap]
  refine ⟨by rw [hsplit]; simp, ?_, by rw [hsplit, List.getLast?_concat]⟩
  rw [hform]
  exact (List.pairwise_lt_range _).sublist (List.filter_sublist _)

/-- Witness for C5 at a concrete input: an ambiguous byte then a concrete
zero, with the empty constraint set. -/
theorem C5_witness :
    (([0, 1] : List Nat) ≠ [] ∧ List.Pairwise (· < ·) ([0, 1] : List Nat) ∧
      ([0, 1] : List Nat).getLast? = some 1) :=
  C5_scan_monotone ⟨64, fun a => if a = 100 then .sym (.var 0)
      else if a = 101 then .concrete 0 else .concrete 5⟩ [] 100 10 10 [0, 1] 1
    (fun _ => 0) rfl
    (by set_option maxRecDepth 20000 in decide)
    (by set_option maxRecDepth 20000 in decide)

/-- Counterexample for C5 as stated: under the unsatisfiable constraint set
`x = 0 ∧ x = 1`, scanning a memory of symbolic bytes `x` gives an empty
candidate list while `_find_zero` stops at offset 0, refuting both the
non-emptiness and the last-element clauses. -/
theorem C5_counterexample :
    _find_zeros ⟨64, fun _ => .sym (.var 0)⟩
      [⟨.eq, .var 0, .const 8 0⟩, ⟨.eq, .var 0, .const 8 1⟩] 0 3 = some [] ∧
    _find_zero ⟨64, fun _ => .sym (.var 0)⟩
      [⟨.eq, .var 0, .const 8 0⟩, ⟨.eq, .var 0, .const 8 1⟩] 0 3 = some 0 := by
  constructor
  · set_option maxRecDepth 40000 in decide
  · set_option maxRecDepth 40000 in decide

/-- C3 (amended): a symbolic pointer argument makes each model raise the
concretization signal before any memory access, with the payloads the code
actually uses: `strlen` reports 1 for its only pointer; `strcmp` reports 1
for `s1` and 2 for `s2` (one-based); `strcpy` checks `src` first and
reports 1 for it, and 2 for `dst`.  In every case the returned state is the
input state, so no memory mutation has occurred. -/
theorem C3_concretization_signals (state : State) (fuel : Nat) :
    (∀ e : Expr, strlen state (.sym e) fuel = some (state, .error 1)) ∧
    (∀ (e : Expr) (s2 : Value), strcmp state (.sym e) s2 fuel = some (state, .error 1)) ∧
    (∀ (a1 : Int) (e : Expr),
      strcmp state (.concrete a1) (.sym e) fuel = some (state, .error 2)) ∧
    (∀ (e : Expr) (dst : Value), strcpy state dst (.sym e) fuel = some (state, .concretize 1)) ∧
    (∀ (srcA : Int) (e : Expr),
      strcpy state (.sym e) (.concrete srcA) fuel = some (state, .concretize 2)) :=
  ⟨fun _ => rfl, fun _ _ => rfl, fun _ _ => rfl, fun _ _ => rfl, fun _ _ => rfl⟩

/-- Counterexample for C3 as stated: the offending argument of `strlen` is
its string pointer, argument position 0 of the declared-concrete arguments,
yet the signal payload is 1, not 0.  Moreover the first string argument
yields payload 1 in `strcmp` but payload 2 in `strcpy` (whose checks are
swapped), so no single position-to-payload convention matches the code. -/
theorem C3_counterexample :
    strlen ⟨⟨64, fun _ => .concrete 0⟩, []⟩ (.sym (.var 0)) 3 =
      some (⟨⟨64, fun _ => .concrete 0⟩, []⟩, .error 1) ∧
    strlen ⟨⟨64, fun _ => .concrete 0⟩, []⟩ (.sym (.var 0)) 3 ≠
      some (⟨⟨64, fun _ => .concrete 0⟩, []⟩, .error 0) ∧
    strcmp ⟨⟨64, fun _ => .concrete 0⟩, []⟩ (.sym (.var 0)) (.concrete 7) 3 =
      some (⟨⟨64, fun _ => .concrete 0⟩, []⟩, .error 1) ∧
    strcpy ⟨⟨64, fun _ => .concrete 0⟩, []⟩ (.sym (.var 0)) (.concrete 7) 3 =
      some (⟨⟨64, fun _ => .concrete 0⟩, []⟩, .concretize 2) := by
  refine ⟨rfl, ?_, rfl, rfl⟩
  intro h
  simp only [strlen, Option.some.injEq, Prod.mk.injEq] at h
  exact absurd h.2 (by simp)

/-- C9: the models never modify the constraint set; `strlen` and `strcmp`
return the input state unchanged (no memory mutation at all); `strcpy`
returns a state with the same constraint set, its writes to the address
space being its only effect. -/
theorem C9_frame (state : State) (s s1 s2 dst src : Value) (fuel : Nat) :
    (∀ (st' : State) (r : Except Nat Value),
        strlen state s fuel = some (st', r) → st' = state) ∧
    (∀ (st' : State) (r : Except Nat (Option Value)),
        strcmp state s1 s2 fuel = some (st', r) → st' = state) ∧
    (∀ (st' : State) (out : StrcpyOut),
        strcpy state dst src fuel = some (st', out) →
        st'.constraints = state.constraints) := by
  refine ⟨?_, ?_, ?_⟩
  · intro st' r h
    cases s with
    | sym e => simp only [strlen] at h; cases h; rfl
    | concrete a =>
        simp only [strlen] at h
        cases hz : _find_zero state.cpu state.constraints a fuel with
        | none => rw [hz] at h; exact absurd h (by simp)
        | some z => rw [hz] at h; cases h; rfl
  · intro st' r h
    cases s1 with
    | sym e => simp only [strcmp] at h; cases h; rfl
    | concrete a1 =>
      cases s2 with
      | sym e => simp only [strcmp] at h; cases h; rfl
      | concrete a2 =>
          simp only [strcmp] at h
          cases hz1 : _find_zero state.cpu state.constraints a1 fuel with
          | none => rw [hz1] at h; exact absurd h (by simp)
          | some z1 =>
              rw [hz1] at h
              cases hz2 : _find_zero state.cpu state.constraints a2 fuel with
              | none => rw [hz2] at h; exact absurd h (by simp)
              | some z2 => rw [hz2] at h; cases h; rfl
  · intro st' out h
    cases src with
    | sym e => simp only [strcpy] at h; cases h; rfl
    | concrete srcA =>
      cases dst with
      | sym e => simp only [strcpy] at h; cases h; rfl
      | concrete dstA =>
        simp only [strcpy] at h
        cases hl : strcpyLoop state.constraints fuel state.cpu dstA srcA with
        | none => rw [hl] at h; exact absurd h (by simp)
        | some q =>
          obtain ⟨cpu1, dst1, src1, c⟩ := q
          rw [hl] at h
          rcases hN : is_NULL c state.constraints with _ | _
          · simp only [hN, Bool.false_eq_true, if_false] at h
            cases hz : _find_zeros cpu1 state.constraints src1 fuel with
            | none => rw [hz] at h; exact absurd h (by simp)
            | some zeros =>
              rw [hz] at h
              match hgl : zeros.getLast? with
              | none => simp only [hgl] at h; cases h; rfl
              | some null =>
                  simp only [hgl] at h
                  match ht : strcpyTail state.constraints dst1 src1 null cpu1 zeros with
                  | (cpu2, b) =>
                      simp only [ht] at h
                      cases b
                      · simp only at h; cases h; rfl
                      · simp only at h; cases h; rfl
          · simp only [hN, if_true] at h; cases h; rfl

/-- Witness for C9 at a concrete run of each model. -/
theorem C9_witness :
    (⟨⟨64, fun _ => .concrete 0⟩, []⟩ : State) = ⟨⟨64, fun _ => .concrete 0⟩, []⟩ ∧
    (⟨⟨64, fun _ => .concrete 0⟩, []⟩ : State) = ⟨⟨64, fun _ => .concrete 0⟩, []⟩ ∧
    (⟨⟨64, fun a => if a = 0 then .concrete 0 else .concrete 0⟩, []⟩ : State).constraints =
      (⟨⟨64, fun _ => .concrete 0⟩, []⟩ : State).constraints := by
  refine ⟨?_, ?_, ?_⟩
  · exact (C9_frame ⟨⟨64, fun _ => .concrete 0⟩, []⟩ (.concrete 0) (.concrete 0) (.concrete 0)
      (.concrete 0) (.concrete 0) 3).1 _ (.ok (.concrete 0)) rfl
  · exact (C9_frame ⟨⟨64, fun _ => .concrete 0⟩, []⟩ (.concrete 0) (.concrete 0) (.concrete 0)
      (.concrete 0) (.concrete 0) 3).2.1 _ (.ok (some (.concrete 0))) rfl
  · exact (C9_frame ⟨⟨64, fun _ => .concrete 0⟩, []⟩ (.concrete 0) (.concrete 0) (.concrete 0)
      (.concrete 0) (.concrete 0) 3).2.2 _ (.ok (.concrete 0)) rfl

/-- A fully concrete null-terminated string at `p`: byte `b i` at `p + i`
for `i ≤ n`, all bytes in `[0, 256)`, non-zero strictly before `n`, zero at
`n`. -/
def ConcreteString (cpu : Cpu) (p : Int) (b : Nat → Int) (n : Nat) : Prop :=
  (∀ i : Nat, i ≤ n → cpu.mem (p + (i : Int)) = .concrete (b i)) ∧
  (∀ i : Nat, i < n → b i ≠ 0) ∧ b n = 0 ∧
  (∀ i : Nat, i ≤ n → 0 ≤ b i ∧ b i < 256)

/-- Modelled from the spec: libc reference semantics of `strcmp` on
unsigned byte sequences (read as plain integers), with a fuel bound for
termination — compare bytes from the start, return the difference at the
first differing offset, 0 when both strings end together. -/
def refStrcmp (b1 b2 : Nat → Int) : Nat → Nat → Int
  | 0, _ => 0
  | fuel + 1, k =>
      if b1 k = b2 k then (if b1 k = 0 then 0 else refStrcmp b1 b2 fuel (k + 1))
      else b1 k - b2 k

/-- First offset `≤ k` at which the two byte sequences differ. -/
def firstDiffUpTo (b1 b2 : Nat → Int) : Nat → Option Nat
  | 0 => if b1 0 = b2 0 then none else some 0
  | k + 1 =>
      match firstDiffUpTo b1 b2 k with
      | some j => some j
      | none => if b1 (k + 1) = b2 (k + 1) then none else some (k + 1)

/-- The pure integer mirror of the concrete branch of the `strcmp` loop
body. -/
def cstep (b1 b2 : Nat → Int) (k : Nat) (r : Option Int) : Option Int :=
  if b1 k = b2 k then (match r with | none => some 0 | some v => some v)
  else some (b1 k - b2 k)

/-- The pure integer mirror of the `strcmp` walk on concrete strings. -/
def cgo (b1 b2 : Nat → Int) : Nat → Option Int → Option Int
  | 0, r => cstep b1 b2 0 r
  | k + 1, r => cgo b1 b2 k (cstep b1 b2 (k + 1) r)

theorem firstDiffUpTo_none (b1 b2 : Nat → Int) :
    ∀ k, firstDiffUpTo b1 b2 k = none ↔ ∀ i : Nat, i ≤ k → b1 i = b2 i := by
  intro k
  induction k with
  | zero =>
      constructor
      · intro h i hi
        interval_cases i
        by_contra hne
        simp [firstDiffUpTo, hne] at h
      · intro h
        simp [firstDiffUpTo, h 0 le_rfl]
  | succ k ih =>
      constructor
      · intro h i hi
        rw [firstDiffUpTo] at h
        match hf : firstDiffUpTo b1 b2 k with
        | some j => rw [hf] at h; exact absurd h (by simp)
        | none =>
            rw [hf] at h
            rcases Nat.lt_or_ge i (k + 1) with h' | h'
            · exact (ih.mp hf) i (by omega)
            · have : i = k + 1 := by omega
              subst this
              by_contra hne
              simp [hne] at h
      · intro h
        rw [firstDiffUpTo]
        rw [ih.mpr (fun i hi => h i (by omega))]
        simp [h (k + 1) le_rfl]

theorem firstDiffUpTo_some (b1 b2 : Nat → Int) :
    ∀ k j, firstDiffUpTo b1 b2 k = some j →
      j ≤ k ∧ b1 j ≠ b2 j ∧ ∀ i : Nat, i < j → b1 i = b2 i := by
  intro k
  induction k with
  | zero =>
      intro j h
      by_cases he : b1 0 = b2 0
      · simp [firstDiffUpTo, he] at h
      · simp [firstDiffUpTo, he] at h
        subst h
        exact ⟨le_rfl, he, fun i hi => absurd hi (by omega)⟩
  | succ k ih =>
      intro j h
      rw [firstDiffUpTo] at h
      match hf : firstDiffUpTo b1 b2 k with
      | some j' =>
          rw [hf] at h
          simp only [Option.some.injEq] at h
          subst h
          obtain ⟨h1, h2, h3⟩ := ih j' hf
          exact ⟨by omega, h2, h3⟩
      | none =>
          rw [hf] at h
          by_cases he : b1 (k + 1) = b2 (k + 1)
          · simp [he] at h
          · simp only [he, if_false, Option.some.injEq] at h
            subst h
            exact ⟨le_rfl, he, fun i hi => (firstDiffUpTo_none b1 b2 k).mp hf i (by omega)⟩

theorem cgo_spec (b1 b2 : Nat → Int) :
    ∀ (k : Nat) (r : Option Int),
      cgo b1 b2 k r =
        match firstDiffUpTo b1 b2 k with
        | some j => some (b1 j - b2 j)
        | none => match r with | none => some 0 | some v => some v := by
  intro k
  induction k with
  | zero =>
      intro r
      by_cases he : b1 0 = b2 0 <;> simp [cgo, cstep, firstDiffUpTo, he]
  | succ k ih =>
      intro r
      rw [cgo, ih, firstDiffUpTo]
      match hf : firstDiffUpTo b1 b2 k with
      | some j => simp
      | none =>
          by_cases he : b1 (k + 1) = b2 (k + 1)
          · simp only [cstep, if_pos he]
            cases r <;> rfl
          · simp [cstep, he]

theorem refStrcmp_all_eq (b1 b2 : Nat → Int) (n : Nat) (h0 : b1 n = 0)
    (heq : ∀ i : Nat, i ≤ n → b1 i = b2 i) (hne : ∀ i : Nat, i < n → b1 i ≠ 0) :
    ∀ (fuel k : Nat), k ≤ n → n + 1 - k ≤ fuel → refStrcmp b1 b2 fuel k = 0 := by
  intro fuel
  induction fuel with
  | zero => intro k hk hf; omega
  | succ fuel ih =>
      intro k hk hf
      rw [refStrcmp]
      rw [if_pos (heq k hk)]
      by_cases hz : b1 k = 0
      · rw [if_pos hz]
      · rw [if_neg hz]
        have hkn : k < n := by
          rcases Nat.eq_or_lt_of_le hk with rfl | h'
          · exact absurd h0 hz
          · exact h'
        exact ih (k + 1) (by omega) (by omega)

theorem refStrcmp_first_diff (b1 b2 : Nat → Int) (j : Nat) (hdiff : b1 j ≠ b2 j)
    (heq : ∀ i : Nat, i < j → b1 i = b2 i) (hnz : ∀ i : Nat, i < j → b1 i ≠ 0) :
    ∀ (fuel k : Nat), k ≤ j → j + 1 - k ≤ fuel →
      refStrcmp b1 b2 fuel k = b1 j - b2 j := by
  intro fuel
  induction fuel with
  | zero => intro k hk hf; omega
  | succ fuel ih =>
      intro k hk hf
      rw [refStrcmp]
      rcases Nat.eq_or_lt_of_le hk with rfl | hkj
      · rw [if_neg hdiff]
      · rw [if_pos (heq k hkj), if_neg (hnz k hkj)]
        exact ih (k + 1) (by omega) (by omega)

theorem concreteString_find_zero (cpu : Cpu) (cs : List BoolExpr) (p : Int)
    (b : Nat → Int) (n fuel : Nat) (h : ConcreteString cpu p b n) (hfuel : n < fuel) :
    _find_zero cpu cs p fuel = some n := by
  obtain ⟨hmem, hne, h0, _⟩ := h
  refine _find_zero_intro cpu cs p fuel n hfuel ?_ ?_
  · intro i hi
    rw [hmem i (by omega)]
    simp [is_NULL, hne i hi]
  · rw [hmem n le_rfl]
    simp [is_NULL, h0]

theorem strlenGo_concrete (cpu : Cpu) (s : Int) :
    ∀ (k : Nat) (ret : Value),
      (∀ i : Nat, i < k → ∃ v : Int, cpu.mem (s + (i : Int)) = .concrete v) →
      strlenGo cpu s k ret = ret := by
  intro k
  induction k with
  | zero => intro ret _; rfl
  | succ k ih =>
      intro ret h
      rw [strlenGo]
      obtain ⟨v, hv⟩ := h k (by omega)
      have hstep : strlenStep cpu s k ret = ret := by
        rw [strlenStep, Cpu.read_int, hv]
      rw [hstep]
      exact ih ret (fun i hi => h i (by omega))

theorem zextend_concrete_byte (v : Int) (W : Nat) (hW : 8 ≤ W)
    (h1 : 0 ≤ v) (h2 : v < 256) : ZEXTEND (.concrete v) W = .concrete v := by
  rw [ZEXTEND]
  have : ((256 : Int)) ≤ (2 : Int) ^ W := by
    calc (256 : Int) = 2 ^ (8 : Nat) := by norm_num
      _ ≤ 2 ^ W := by
        apply pow_le_pow_right₀ (by norm_num) hW
  rw [Int.emod_eq_of_lt h1 (by omega)]

theorem strcmpStep_concrete (cpu : Cpu) (s1 s2 : Int) (b1 b2 : Nat → Int)
    (hW : 8 ≤ cpu.address_bit_size) (k : Nat)
    (hm1 : cpu.mem (s1 + (k : Int)) = .concrete (b1 k))
    (hm2 : cpu.mem (s2 + (k : Int)) = .concrete (b2 k))
    (hr1 : 0 ≤ b1 k ∧ b1 k < 256) (hr2 : 0 ≤ b2 k ∧ b2 k < 256)
    (r : Option Int) :
    strcmpStep cpu s1 s2 k (Option.map Value.concrete r) =
      Option.map Value.concrete (cstep b1 b2 k r) := by
  rw [strcmpStep.eq_def, Cpu.read_int, Cpu.read_int, hm1, hm2,
    zextend_concrete_byte (b1 k) cpu.address_bit_size hW hr1.1 hr1.2,
    zextend_concrete_byte (b2 k) cpu.address_bit_size hW hr2.1 hr2.2]
  simp only [issymbolic, Bool.or_self, Bool.false_eq_true, if_false]
  by_cases he : b1 k = b2 k
  · rw [if_neg (by simp [he]), cstep.eq_def, if_pos he]
    cases r <;> rfl
  · rw [if_pos (by simp [he]), cstep.eq_def, if_neg he]
    rfl

theorem strcmpGo_concrete (cpu : Cpu) (s1 s2 : Int) (b1 b2 : Nat → Int) (m : Nat)
    (hW : 8 ≤ cpu.address_bit_size)
    (hm1 : ∀ i : Nat, i ≤ m → cpu.mem (s1 + (i : Int)) = .concrete (b1 i))
    (hm2 : ∀ i : Nat, i ≤ m → cpu.mem (s2 + (i : Int)) = .concrete (b2 i))
    (hr1 : ∀ i : Nat, i ≤ m → 0 ≤ b1 i ∧ b1 i < 256)
    (hr2 : ∀ i : Nat, i ≤ m → 0 ≤ b2 i ∧ b2 i < 256) :
    ∀ (k : Nat), k ≤ m → ∀ r : Option Int,
      strcmpGo cpu s1 s2 k (Option.map Value.concrete r) =
        Option.map Value.concrete (cgo b1 b2 k r) := by
  intro k
  induction k with
  | zero =>
      intro _ r
      rw [strcmpGo, cgo]
      exact strcmpStep_concrete cpu s1 s2 b1 b2 hW 0 (hm1 0 (by omega)) (hm2 0 (by omega))
        (hr1 0 (by omega)) (hr2 0 (by omega)) r
  | succ k ih =>
      intro hk r
      rw [strcmpGo, cgo,
        strcmpStep_concrete cpu s1 s2 b1 b2 hW (k + 1) (hm1 _ hk) (hm2 _ hk)
          (hr1 _ hk) (hr2 _ hk) r]
      exact ih (by omega) (cstep b1 b2 (k + 1) r)

theorem strcpyLoop_concrete (cs : List BoolExpr) (cpu : Cpu) (dstA srcA : Int)
    (b : Nat → Int) (n : Nat)
    (hstr : ConcreteString cpu srcA b n)
    (hdisj : ∀ (i j : Nat), i ≤ n → j < n → srcA + (i : Int) ≠ dstA + (j : Int)) :
    ∀ (fuel k : Nat) (cpuK : Cpu), k ≤ n → n - k < fuel →
      cpuK.address_bit_size = cpu.address_bit_size →
      (∀ i : Nat, i < k → cpuK.mem (dstA + (i : Int)) = .concrete (b i)) →
      (∀ a : Int, (∀ j : Nat, j < k → a ≠ dstA + (j : Int)) → cpuK.mem a = cpu.mem a) →
      ∃ cpu1 : Cpu,
        strcpyLoop cs fuel cpuK (dstA + (k : Int)) (srcA + (k : Int)) =
          some (cpu1, dstA + (n : Int), srcA + (n : Int), .concrete 0) ∧
        cpu1.address_bit_size = cpu.address_bit_size ∧
        (∀ i : Nat, i < n → cpu1.mem (dstA + (i : Int)) = .concrete (b i)) ∧
        (∀ a : Int, (∀ j : Nat, j < n → a ≠ dstA + (j : Int)) → cpu1.mem a = cpu.mem a) := by
  obtain ⟨hmem, hnz, h0, hrange⟩ := hstr
  intro fuel
  induction fuel with
  | zero => intro k cpuK hk hf; omega
  | succ fuel ih =>
      intro k cpuK hk hf habs hcopied hagree
      have hread : cpuK.mem (srcA + (k : Int)) = .concrete (b k) := by
        rw [hagree (srcA + (k : Int)) (fun j hj => hdisj k j hk (by omega)), hmem k hk]
      rcases Nat.eq_or_lt_of_le hk with rfl | hkn
      · -- at the terminator: the byte is the concrete zero, the loop stops
        refine ⟨cpuK, ?_, habs, fun i hi => hcopied i hi, hagree⟩
        rw [strcpyLoop, Cpu.read_int, hread, h0]
        simp [not_NULL]
      · -- a non-null byte: copy it and continue
        have hbk : b k ≠ 0 := hnz k hkn
        have hwrite : (cpuK.write_int (dstA + (k : Int)) (.concrete (b k)) 8).address_bit_size =
            cpu.address_bit_size := habs
        obtain ⟨cpu1, hloop, habs1, hcop1, hagr1⟩ :=
          ih (k + 1) (cpuK.write_int (dstA + (k : Int)) (.concrete (b k)) 8)
            (by omega) (by omega) hwrite
            (by
              intro i hi
              rw [Cpu.write_int]
              simp only
              by_cases hik : dstA + (i : Int) = dstA + (k : Int)
              · have : i = k := by omega
                subst this
                simp
              · rw [if_neg hik]
                exact hcopied i (by
                  rcases Nat.lt_or_ge i k with h' | h'
                  · exact h'
                  · exact absurd (by omega : (i : Int) = (k : Int)) (fun hh => hik (by omega)))
            )
            (by
              intro a ha
              rw [Cpu.write_int]
              simp only
              rw [if_neg (ha k (by omega))]
              exact hagree a (fun j hj => ha j (by omega)))
        refine ⟨cpu1, ?_, habs1, hcop1, hagr1⟩
        rw [strcpyLoop, Cpu.read_int, hread]
        rw [if_pos (by simp [not_NULL, hbk])]
        have e1 : dstA + (k : Int) + 1 = dstA + ((k + 1 : Nat) : Int) := by push_cast; ring
        have e2 : srcA + (k : Int) + 1 = srcA + ((k + 1 : Nat) : Int) := by push_cast; ring
        rw [e1, e2]
        exact hloop

/-- C1: on fully concrete memory the three models agree with the reference
libc semantics.  `strlen` returns the index of the first zero byte;
`strcmp` returns exactly the libc comparison result (difference of the
zero-extended bytes at the first differing offset, 0 for equal strings);
`strcpy` copies the source bytes up to and including the terminator to a
non-overlapping destination, leaves all other memory unchanged, and returns
the original destination pointer. -/
theorem C1_concrete_equivalence (state : State) (fuel : Nat)
    (hW : 8 ≤ state.cpu.address_bit_size) :
    (∀ (sA : Int) (b : Nat → Int) (n : Nat),
        ConcreteString state.cpu sA b n → n < fuel →
        strlen state (.concrete sA) fuel = some (state, .ok (.concrete (n : Int)))) ∧
    (∀ (s1A s2A : Int) (b1 b2 : Nat → Int) (n1 n2 : Nat),
        ConcreteString state.cpu s1A b1 n1 → ConcreteString state.cpu s2A b2 n2 →
        n1 < fuel → n2 < fuel →
        strcmp state (.concrete s1A) (.concrete s2A) fuel =
          some (state, .ok (some (.concrete (refStrcmp b1 b2 (n1 + 1) 0))))) ∧
    (∀ (dstA srcA : Int) (b : Nat → Int) (n : Nat),
        ConcreteString state.cpu srcA b n → n < fuel →
        (∀ (i j : Nat), i ≤ n → j ≤ n → srcA + (i : Int) ≠ dstA + (j : Int)) →
        ∃ st' : State,
          strcpy state (.concrete dstA) (.concrete srcA) fuel =
            some (st', .ok (.concrete dstA)) ∧
          (∀ i : Nat, i ≤ n → st'.cpu.mem (dstA + (i : Int)) = .concrete (b i)) ∧
          (∀ a : Int, (∀ j : Nat, j ≤ n → a ≠ dstA + (j : Int)) →
            st'.cpu.mem a = state.cpu.mem a)) := by
  refine ⟨?_, ?_, ?_⟩
  · -- strlen
    intro sA b n hstr hfuel
    have hz := concreteString_find_zero state.cpu state.constraints sA b n fuel hstr hfuel
    simp only [strlen, hz]
    rw [strlenGo_concrete state.cpu sA n (.concrete (n : Int))
      (fun i hi => ⟨b i, hstr.1 i (by omega)⟩)]
  · -- strcmp
    intro s1A s2A b1 b2 n1 n2 hstr1 hstr2 hf1 hf2
    have hz1 := concreteString_find_zero state.cpu state.constraints s1A b1 n1 fuel hstr1 hf1
    have hz2 := concreteString_find_zero state.cpu state.constraints s2A b2 n2 fuel hstr2 hf2
    simp only [strcmp, hz1, hz2]
    obtain ⟨hmem1, hnz1, h01, hrg1⟩ := hstr1
    obtain ⟨hmem2, hnz2, h02, hrg2⟩ := hstr2
    have hgo := strcmpGo_concrete state.cpu s1A s2A b1 b2 (min n1 n2) hW
      (fun i hi => hmem1 i (by omega)) (fun i hi => hmem2 i (by omega))
      (fun i hi => hrg1 i (by omega)) (fun i hi => hrg2 i (by omega))
      (min n1 n2) le_rfl none
    simp only [Option.map_none'] at hgo
    rw [hgo, cgo_spec]
    have hval : (match firstDiffUpTo b1 b2 (min n1 n2) with
        | some j => some (b1 j - b2 j)
        | none => (match (none : Option Int) with
            | none => some 0 | some v => some v)) =
        some (refStrcmp b1 b2 (n1 + 1) 0) := by
      match hfd : firstDiffUpTo b1 b2 (min n1 n2) with
      | some j =>
          obtain ⟨hj, hdiff, heq⟩ := firstDiffUpTo_some b1 b2 (min n1 n2) j hfd
          rw [refStrcmp_first_diff b1 b2 j hdiff heq
            (fun i hi => hnz1 i (by omega)) (n1 + 1) 0 (by omega) (by omega)]
      | none =>
          have hall := (firstDiffUpTo_none b1 b2 (min n1 n2)).mp hfd
          have hn12 : n1 = n2 := by
            rcases Nat.lt_trichotomy n1 n2 with h | h | h
            · exfalso
              have h1 : b1 n1 = b2 n1 := hall n1 (by omega)
              rw [h01] at h1
              exact hnz2 n1 h (h1.symm)
            · exact h
            · exfalso
              have h1 : b1 n2 = b2 n2 := hall n2 (by omega)
              rw [h02] at h1
              exact hnz1 n2 h h1
          rw [refStrcmp_all_eq b1 b2 n1 h01
            (fun i hi => hall i (by omega)) hnz1 (n1 + 1) 0 (by omega) (by omega)]
      -- close the leftover match-on-none shape
    rw [hval]
    rfl
  · -- strcpy
    intro dstA srcA b n hstr hfuel hdisj
    obtain ⟨cpu1, hloop, habs1, hcop, hagr⟩ :=
      strcpyLoop_concrete state.constraints state.cpu dstA srcA b n hstr
        (fun i j hi hj => hdisj i j hi (by omega)) fuel 0 state.cpu (by omega) (by omega)
        rfl (fun i hi => absurd hi (by omega)) (fun a _ => rfl)
    simp only [Nat.cast_zero, add_zero] at hloop
    refine ⟨⟨cpu1.write_int (dstA + (n : Int)) (.concrete 0) 8, state.constraints⟩, ?_, ?_, ?_⟩
    · simp only [strcpy, hloop]
      have : is_NULL (.concrete 0) state.constraints = true := by simp [is_NULL]
      rw [if_pos this]
    · intro i hi
      simp only [Cpu.write_int]
      by_cases hin : dstA + (i : Int) = dstA + (n : Int)
      · have : i = n := by omega
        subst this
        rw [if_pos hin, hstr.2.2.1]
      · rw [if_neg hin]
        exact hcop i (by
          rcases Nat.lt_or_ge i n with h' | h'
          · exact h'
          · exact absurd (by omega : i = n) (fun hh => hin (by rw [hh])))
    · intro a ha
      simp only [Cpu.write_int]
      rw [if_neg (ha n le_rfl)]
      exact hagr a (fun j hj => ha j (by omega))

/-- Example memory for witnesses: the string "hi" at 100, the string "h" at
110, filler byte 7 elsewhere (including the copy destination 200). -/
def exMem : Int → Value := fun a =>
  if a = 100 then .concrete 104
  else if a = 101 then .concrete 105
  else if a = 102 then .concrete 0
  else if a = 110 then .concrete 104
  else if a = 111 then .concrete 0
  else .concrete 7

/-- Example state built over `exMem` with no path constraints. -/
def exState : State := ⟨⟨64, exMem⟩, []⟩

/-- Byte content of the example string "hi". -/
def exB1 : Nat → Int := fun i => if i = 0 then 104 else if i = 1 then 105 else 0

/-- Byte content of the example string "h". -/
def exB2 : Nat → Int := fun i => if i = 0 then 104 else 0

/-- Witness for C1: "hi" has length 2, comparing "hi" with "h" gives the
libc result, and copying "hi" to 200 reproduces its three bytes there. -/
theorem C1_witness :
    strlen exState (.concrete 100) 5 = some (exState, .ok (.concrete 2)) ∧
    strcmp exState (.concrete 100) (.concrete 110) 5 =
      some (exState, .ok (some (.concrete (refStrcmp exB1 exB2 3 0)))) ∧
    (∃ st' : State,
      strcpy exState (.concrete 200) (.concrete 100) 5 = some (st', .ok (.concrete 200)) ∧
      (∀ i : Nat, i ≤ 2 → st'.cpu.mem (200 + (i : Int)) = .concrete (exB1 i)) ∧
      (∀ a : Int, (∀ j : Nat, j ≤ 2 → a ≠ 200 + (j : Int)) →
        st'.cpu.mem a = exState.cpu.mem a)) := by
  have hstr1 : ConcreteString exState.cpu 100 exB1 2 :=
    ⟨by intro i hi; interval_cases i <;> decide,
     by intro i hi; interval_cases i <;> decide,
     by decide,
     by intro i hi; interval_cases i <;> decide⟩
  have hstr2 : ConcreteString exState.cpu 110 exB2 1 :=
    ⟨by intro i hi; interval_cases i <;> decide,
     by intro i hi; interval_cases i <;> decide,
     by decide,
     by intro i hi; interval_cases i <;> decide⟩
  refine ⟨?_, ?_, ?_⟩
  · exact (C1_concrete_equivalence exState 5 (by decide)).1 100 exB1 2 hstr1 (by omega)
  · exact (C1_concrete_equivalence exState 5 (by decide)).2.1 100 110 exB1 exB2 2 1
      hstr1 hstr2 (by omega) (by omega)
  · exact (C1_concrete_equivalence exState 5 (by decide)).2.2 200 100 exB1 2 hstr1 (by omega)
      (by intro i j hi hj; omega)

theorem strcmpGo_split (cpu : Cpu) (s1 s2 : Int) :
    ∀ (m k : Nat), k ≤ m → ∀ r : Option Value,
      ∃ r' : Option Value, strcmpGo cpu s1 s2 m r = strcmpGo cpu s1 s2 k r' := by
  intro m
  induction m with
  | zero =>
      intro k hk r
      obtain rfl : k = 0 := by omega
      exact ⟨r, rfl⟩
  | succ m ih =>
      intro k hk r
      rcases Nat.eq_or_lt_of_le hk with rfl | hk'
      · exact ⟨r, rfl⟩
      · obtain ⟨r', hr'⟩ := ih k (by omega) (strcmpStep cpu s1 s2 (m + 1) r)
        exact ⟨r', by rw [strcmpGo, hr']⟩

theorem strcmpStep_concrete_diff (cpu : Cpu) (s1 s2 : Int) (k : Nat) (v1 v2 : Int)
    (hW : 8 ≤ cpu.address_bit_size)
    (hm1 : cpu.mem (s1 + (k : Int)) = .concrete v1)
    (hm2 : cpu.mem (s2 + (k : Int)) = .concrete v2)
    (hr1 : 0 ≤ v1 ∧ v1 < 256) (hr2 : 0 ≤ v2 ∧ v2 < 256) (hne : v1 ≠ v2) :
    ∀ r : Option Value, strcmpStep cpu s1 s2 k r = some (.concrete (v1 - v2)) := by
  intro r
  rw [strcmpStep.eq_def, Cpu.read_int, Cpu.read_int, hm1, hm2,
    zextend_concrete_byte v1 cpu.address_bit_size hW hr1.1 hr1.2,
    zextend_concrete_byte v2 cpu.address_bit_size hW hr2.1 hr2.2]
  simp only [issymbolic, Bool.or_self, Bool.false_eq_true, if_false]
  rw [if_pos (by simp [hne])]
  rfl

theorem strcmpGo_keep (cpu : Cpu) (s1 s2 : Int) (hW : 8 ≤ cpu.address_bit_size) :
    ∀ (kk : Nat),
      (∀ i : Nat, i ≤ kk → ∃ v : Int, 0 ≤ v ∧ v < 256 ∧
        cpu.mem (s1 + (i : Int)) = .concrete v ∧ cpu.mem (s2 + (i : Int)) = .concrete v) →
      ∀ r : Value, strcmpGo cpu s1 s2 kk (some r) = some r := by
  have hstep : ∀ (i : Nat),
      (∃ v : Int, 0 ≤ v ∧ v < 256 ∧
        cpu.mem (s1 + (i : Int)) = .concrete v ∧ cpu.mem (s2 + (i : Int)) = .concrete v) →
      ∀ r : Value, strcmpStep cpu s1 s2 i (some r) = some r := by
    rintro i ⟨v, hv1, hv2, hc1, hc2⟩ r
    rw [strcmpStep.eq_def, Cpu.read_int, Cpu.read_int, hc1, hc2,
      zextend_concrete_byte v cpu.address_bit_size hW hv1 hv2]
    simp only [issymbolic, Bool.or_self, Bool.false_eq_true, if_false]
    rw [if_neg (by simp)]
  intro kk
  induction kk with
  | zero => intro h r; rw [strcmpGo, hstep 0 (h 0 le_rfl) r]
  | succ kk ih =>
      intro h r
      rw [strcmpGo, hstep (kk + 1) (h (kk + 1) le_rfl) r]
      exact ih (fun i hi => h i (by omega)) r

/-- C8: a concrete mismatch at offset `k` within the walk, with concrete
equal byte pairs at all smaller offsets, makes `strcmp` return exactly the
concrete difference of the two bytes at `k` — the symbolic tree accumulated
at larger offsets is discarded — and this value equals the libc reference
comparison of the realized strings under every assignment. -/
theorem C8_concrete_mismatch (state : State) (s1A s2A : Int) (fuel z1 z2 k : Nat)
    (v1 v2 : Int) (hW : 8 ≤ state.cpu.address_bit_size)
    (hz1 : _find_zero state.cpu state.constraints s1A fuel = some z1)
    (hz2 : _find_zero state.cpu state.constraints s2A fuel = some z2)
    (hk : k ≤ min z1 z2)
    (hbelow : ∀ i : Nat, i < k → ∃ v : Int, 0 ≤ v ∧ v < 256 ∧
      state.cpu.mem (s1A + (i : Int)) = .concrete v ∧
      state.cpu.mem (s2A + (i : Int)) = .concrete v)
    (hk1 : state.cpu.mem (s1A + (k : Int)) = .concrete v1)
    (hk2 : state.cpu.mem (s2A + (k : Int)) = .concrete v2)
    (hr1 : 0 ≤ v1 ∧ v1 < 256) (hr2 : 0 ≤ v2 ∧ v2 < 256) (hne : v1 ≠ v2) :
    strcmp state (.concrete s1A) (.concrete s2A) fuel =
      some (state, .ok (some (.concrete (v1 - v2)))) ∧
    (∀ ρ : Nat → Nat,
      refStrcmp (fun i => (evalV 8 ρ (state.cpu.mem (s1A + (i : Int))) : Int))
        (fun i => (evalV 8 ρ (state.cpu.mem (s2A + (i : Int))) : Int)) (k + 1) 0 =
        v1 - v2) := by
  have hnz : ∀ i : Nat, i < k →
      ∀ v : Int, state.cpu.mem (s1A + (i : Int)) = .concrete v → v ≠ 0 := by
    intro i hi v hv
    have h1 := (_find_zero_spec state.cpu state.constraints s1A fuel z1 hz1).1 i (by omega)
    rw [hv] at h1
    simpa [is_NULL] using h1
  constructor
  · simp only [strcmp, hz1, hz2]
    obtain ⟨r', hsplit⟩ := strcmpGo_split state.cpu s1A s2A (min z1 z2) k hk none
    rw [hsplit]
    match k, hk1, hk2, hbelow, hnz with
    | 0, hk1, hk2, hbelow, hnz =>
        rw [strcmpGo,
          strcmpStep_concrete_diff state.cpu s1A s2A 0 v1 v2 hW hk1 hk2 hr1 hr2 hne r']
    | k + 1, hk1, hk2, hbelow, hnz =>
        rw [strcmpGo,
          strcmpStep_concrete_diff state.cpu s1A s2A (k + 1) v1 v2 hW hk1 hk2 hr1 hr2 hne r',
          strcmpGo_keep state.cpu s1A s2A hW k (fun i hi => hbelow i (by omega))]
  · intro ρ
    have heval : ∀ (v : Int), 0 ≤ v → v < 256 →
        ((evalV 8 ρ (Value.concrete v) : Int)) = v := by
      intro v h1 h2
      have hb : ((2 : Int) ^ (8 : Nat)) = 256 := by norm_num
      simp only [evalV, hb, Int.emod_eq_of_lt h1 h2]
      omega
    have e1 : ((evalV 8 ρ (state.cpu.mem (s1A + (k : Int)))) : Int) = v1 := by
      rw [hk1]; exact heval v1 hr1.1 hr1.2
    have e2 : ((evalV 8 ρ (state.cpu.mem (s2A + (k : Int)))) : Int) = v2 := by
      rw [hk2]; exact heval v2 hr2.1 hr2.2
    have hmain := refStrcmp_first_diff
      (fun i => (evalV 8 ρ (state.cpu.mem (s1A + (i : Int))) : Int))
      (fun i => (evalV 8 ρ (state.cpu.mem (s2A + (i : Int))) : Int)) k
      (by simpa [e1, e2] using hne)
      (by
        intro i hi
        obtain ⟨v, h1, h2, hc1, hc2⟩ := hbelow i hi
        simp [hc1, hc2])
      (by
        intro i hi
        obtain ⟨v, h1, h2, hc1, hc2⟩ := hbelow i hi
        simp only [hc1]
        rw [heval v h1 h2]
        exact hnz i hi v hc1)
      (k + 1) 0 (by omega) (by omega)
    rw [hmain]
    simp only [e1, e2]


/-- Witness for C8: comparing "hi" at 100 with "h" at 110, the bytes agree
at offset 0 and differ concretely at offset 1 (105 versus 0); the model
returns the concrete difference 105 and the libc reference agrees. -/
theorem C8_witness :
    (strcmp exState (.concrete 100) (.concrete 110) 5 =
      some (exState, .ok (some (.concrete (105 - 0)))) ∧
    (∀ ρ : Nat → Nat,
      refStrcmp (fun i => (evalV 8 ρ (exState.cpu.mem ((100 : Int) + (i : Int))) : Int))
        (fun i => (evalV 8 ρ (exState.cpu.mem ((110 : Int) + (i : Int))) : Int)) 2 0 =
        105 - 0)) :=
  C8_concrete_mismatch exState 100 110 5 2 1 1 105 0 (by decide)
    (by decide) (by decide) (by omega)
    (by
      intro i hi
      interval_cases i
      exact ⟨104, by norm_num, by norm_num, by decide, by decide⟩)
    (by decide) (by decide) (by norm_num) (by norm_num) (by norm_num)

/-- Realized byte (as an integer) of the string at `s`, offset `i`, under
assignment `ρ`. -/
def rb (cpu : Cpu) (s : Int) (ρ : Nat → Nat) (i : Nat) : Int :=
  (evalV 8 ρ (cpu.mem (s + (i : Int))) : Int)

/-- First offset in the window `[lo, lo + cnt)` at which the two byte
sequences differ. -/
def firstDiffFrom (b1 b2 : Nat → Int) : Nat → Nat → Option Nat
  | _, 0 => none
  | lo, cnt + 1 =>
      if b1 lo = b2 lo then firstDiffFrom b1 b2 (lo + 1) cnt else some lo

/-- The wrapped bit-vector difference of two integers at a width. -/
def wdiff (W : Nat) (a b : Int) : Nat := ((a - b) % ((2 : Int) ^ W)).toNat

theorem firstDiffFrom_none_iff (b1 b2 : Nat → Int) :
    ∀ (cnt lo : Nat), firstDiffFrom b1 b2 lo cnt = none ↔
      ∀ i : Nat, lo ≤ i → i < lo + cnt → b1 i = b2 i := by
  intro cnt
  induction cnt with
  | zero => intro lo; simp [firstDiffFrom]; intro i h1 h2; omega
  | succ cnt ih =>
      intro lo
      rw [firstDiffFrom]
      by_cases he : b1 lo = b2 lo
      · rw [if_pos he, ih (lo + 1)]
        constructor
        · intro h i h1 h2
          rcases Nat.eq_or_lt_of_le h1 with rfl | h'
          · exact he
          · exact h i h' (by omega)
        · intro h i h1 h2
          exact h i (by omega) (by omega)
      · rw [if_neg he]
        constructor
        · intro h; exact absurd h (by simp)
        · intro h; exact absurd (h lo le_rfl (by omega)) he

theorem firstDiffFrom_some_spec (b1 b2 : Nat → Int) :
    ∀ (cnt lo j : Nat), firstDiffFrom b1 b2 lo cnt = some j →
      lo ≤ j ∧ j < lo + cnt ∧ b1 j ≠ b2 j ∧
        ∀ i : Nat, lo ≤ i → i < j → b1 i = b2 i := by
  intro cnt
  induction cnt with
  | zero => intro lo j h; exact absurd h (by simp [firstDiffFrom])
  | succ cnt ih =>
      intro lo j h
      rw [firstDiffFrom] at h
      by_cases he : b1 lo = b2 lo
      · rw [if_pos he] at h
        obtain ⟨h1, h2, h3, h4⟩ := ih (lo + 1) j h
        refine ⟨by omega, by omega, h3, ?_⟩
        intro i hi1 hi2
        rcases Nat.eq_or_lt_of_le hi1 with rfl | h'
        · exact he
        · exact h4 i h' hi2
      · rw [if_neg he] at h
        simp only [Option.some.injEq] at h
        subst h
        exact ⟨le_rfl, by omega, he, fun i h1 h2 => by omega⟩

theorem evalE_toExpr (W : Nat) (ρ : Nat → Nat) (v : Value) :
    evalE ρ (toExpr W v) = evalV W ρ v := by
  cases v <;> rfl

theorem evalV_ZEXTEND (B : Value) (W : Nat) (ρ : Nat → Nat)
    (hwf : ValueWF8 B) (hW : 8 ≤ W) :
    evalV W ρ (ZEXTEND B W) = evalV 8 ρ B := by
  cases B with
  | concrete v =>
      obtain ⟨h1, h2⟩ := hwf
      have h256 : ((256 : Int)) ≤ (2 : Int) ^ W := by
        calc (256 : Int) = 2 ^ (8 : Nat) := by norm_num
          _ ≤ 2 ^ W := by apply pow_le_pow_right₀ (by norm_num) hW
      have h8 : ((2 : Int) ^ (8 : Nat)) = 256 := by norm_num
      simp only [ZEXTEND, evalV, h8]
      rw [Int.emod_eq_of_lt h1 (by omega), Int.emod_eq_of_lt h1 (by omega),
        Int.emod_eq_of_lt h1 (by omega)]
  | sym e => rfl

theorem rb_nonneg (cpu : Cpu) (s : Int) (ρ : Nat → Nat) (i : Nat) :
    0 ≤ rb cpu s ρ i := Int.natCast_nonneg _

theorem rb_lt (cpu : Cpu) (s : Int) (ρ : Nat → Nat) (i : Nat) (hwf : CpuWF cpu) :
    rb cpu s ρ i < 256 := by
  have := evalV8_lt ρ (cpu.mem (s + (i : Int))) (hwf _)
  unfold rb
  omega

theorem rb_eq_concrete (cpu : Cpu) (s : Int) (ρ : Nat → Nat) (i : Nat) (v : Int)
    (hm : cpu.mem (s + (i : Int)) = .concrete v) (h1 : 0 ≤ v) (h2 : v < 256) :
    rb cpu s ρ i = v := by
  have h8 : ((2 : Int) ^ (8 : Nat)) = 256 := by norm_num
  unfold rb
  rw [hm]
  simp only [evalV, h8, Int.emod_eq_of_lt h1 h2]
  omega

theorem cast_evalV8_concrete (ρ : Nat → Nat) (v : Int) (h1 : 0 ≤ v) (h2 : v < 256) :
    ((evalV 8 ρ (.concrete v) : Int)) = v := by
  have h8 : ((2 : Int) ^ (8 : Nat)) = 256 := by norm_num
  simp only [evalV, h8, Int.emod_eq_of_lt h1 h2]
  omega

theorem vsub_eval_sym (x y : Value) (W : Nat) (ρ : Nat → Nat)
    (hxy : (issymbolic x || issymbolic y) = true) :
    evalV W ρ (vsub W x y) =
      (((evalE ρ (toExpr W x) : Int) - (evalE ρ (toExpr W y) : Int)) %
        ((2 : Int) ^ W)).toNat := by
  match x, y, hxy with
  | .concrete a, .concrete b, h => exact absurd h (by simp [issymbolic])
  | .concrete a, .sym e, _ => rfl
  | .sym e, .concrete b, _ => rfl
  | .sym e, .sym f, _ => rfl

theorem evalV_char_sub (B1 B2 : Value) (W : Nat) (ρ : Nat → Nat) (hW : 8 ≤ W)
    (h1 : ValueWF8 B1) (h2 : ValueWF8 B2) :
    evalV W ρ (vsub W (ZEXTEND B1 W) (ZEXTEND B2 W)) =
      wdiff W ((evalV 8 ρ B1 : Int)) ((evalV 8 ρ B2 : Int)) := by
  have h256 : ((256 : Int)) ≤ (2 : Int) ^ W := by
    calc (256 : Int) = 2 ^ (8 : Nat) := by norm_num
      _ ≤ 2 ^ W := by apply pow_le_pow_right₀ (by norm_num) hW
  by_cases hxy : (issymbolic (ZEXTEND B1 W) || issymbolic (ZEXTEND B2 W)) = true
  · rw [vsub_eval_sym _ _ W ρ hxy, evalE_toExpr, evalE_toExpr,
      evalV_ZEXTEND B1 W ρ h1 hW, evalV_ZEXTEND B2 W ρ h2 hW]
    rfl
  · -- both bytes concrete
    match B1, B2, h1, h2, hxy with
    | .concrete v1, .concrete v2, h1, h2, _ =>
        obtain ⟨ha1, ha2⟩ := h1
        obtain ⟨hb1, hb2⟩ := h2
        have hzx1 : ZEXTEND (Value.concrete v1) W = Value.concrete v1 := by
          simp only [ZEXTEND]
          rw [Int.emod_eq_of_lt ha1 (by omega)]
        have hzx2 : ZEXTEND (Value.concrete v2) W = Value.concrete v2 := by
          simp only [ZEXTEND]
          rw [Int.emod_eq_of_lt hb1 (by omega)]
        rw [hzx1, hzx2, cast_evalV8_concrete ρ v1 ha1 ha2, cast_evalV8_concrete ρ v2 hb1 hb2]
        rfl
    | .concrete v1, .sym f, h1, h2, hxy =>
        exact absurd (by simp [ZEXTEND, issymbolic]) hxy
    | .sym f, _, h1, h2, hxy =>
        exact absurd (by simp [ZEXTEND, issymbolic]) hxy

theorem wdiff_self (W : Nat) (a : Int) : wdiff W a a = 0 := by
  simp [wdiff]

theorem wdiff_ne_zero (W : Nat) (hW : 8 ≤ W) (a b : Int)
    (ha1 : 0 ≤ a) (ha2 : a < 256) (hb1 : 0 ≤ b) (hb2 : b < 256) (hne : a ≠ b) :
    wdiff W a b ≠ 0 := by
  have h256 : ((256 : Int)) ≤ (2 : Int) ^ W := by
    calc (256 : Int) = 2 ^ (8 : Nat) := by norm_num
      _ ≤ 2 ^ W := by apply pow_le_pow_right₀ (by norm_num) hW
  unfold wdiff
  rcases Int.lt_or_lt_of_ne (sub_ne_zero_of_ne hne) with h | h
  · -- a - b < 0 : the wrapped value is a - b + 2^W, a positive number
    have hrw : (a - b) % ((2 : Int) ^ W) = a - b + (2 : Int) ^ W := by
      have : (a - b) % ((2 : Int) ^ W) = (a - b + (2 : Int) ^ W * 1) % ((2 : Int) ^ W) := by
        rw [Int.add_mul_emod_self_left]
      rw [this, mul_one, Int.emod_eq_of_lt (by omega) (by omega)]
    rw [hrw]
    omega
  · have hrw : (a - b) % ((2 : Int) ^ W) = a - b := by
      rw [Int.emod_eq_of_lt (by omega) (by omega)]
    rw [hrw]
    omega

theorem vne_not_both_concrete (w : Nat) (x y : Value)
    (hxy : (issymbolic x || issymbolic y) = true) :
    vne w x y = .cexpr ⟨.ne, toExpr w x, toExpr w y⟩ := by
  match x, y, hxy with
  | .concrete a, .concrete b, h => exact absurd h (by simp [issymbolic])
  | .concrete a, .sym e, _ => rfl
  | .sym e, .concrete b, _ => rfl
  | .sym e, .sym f, _ => rfl

theorem evalV_ITEBV_cexpr (W : Nat) (ρ : Nat → Nat) (c : BoolExpr) (t f : Value) :
    evalV W ρ (ITEBV W (.cexpr c) t f) =
      if evalB ρ c then evalV W ρ t else evalV W ρ f := by
  show (if cmpDenote c.ck (evalE ρ c.a) (evalE ρ c.b)
      then evalE ρ (toExpr W t) else evalE ρ (toExpr W f)) = _
  rw [evalE_toExpr, evalE_toExpr]
  rfl

/-- The invariant of the `strcmp` walk: a carried `none` means the processed
window above `M` is empty; a carried value evaluates, under every
assignment, to the wrapped pointer-width difference of the realized bytes
at the first differing offset of the processed window `[lo, M]`, and to 0
when the realized strings agree on the whole window. -/
def RepOk (cpu : Cpu) (s1 s2 : Int) (M lo : Nat) : Option Value → Prop
  | none => lo = M + 1
  | some v => ∀ ρ : Nat → Nat,
      evalV cpu.address_bit_size ρ v =
        match firstDiffFrom (rb cpu s1 ρ) (rb cpu s2 ρ) lo (M + 1 - lo) with
        | some j => wdiff cpu.address_bit_size (rb cpu s1 ρ j) (rb cpu s2 ρ j)
        | none => 0

theorem strcmpStep_RepOk (cpu : Cpu) (s1 s2 : Int)
    (hW : 8 ≤ cpu.address_bit_size) (hwf : CpuWF cpu) (M o : Nat) (ho : o ≤ M)
    (ret : Option Value) (h : RepOk cpu s1 s2 M (o + 1) ret) :
    ∃ v : Value, strcmpStep cpu s1 s2 o ret = some v ∧
      RepOk cpu s1 s2 M o (some v) := by
  have hwin : ∀ ρ : Nat → Nat,
      firstDiffFrom (rb cpu s1 ρ) (rb cpu s2 ρ) o (M + 1 - o) =
        if rb cpu s1 ρ o = rb cpu s2 ρ o
        then firstDiffFrom (rb cpu s1 ρ) (rb cpu s2 ρ) (o + 1) (M + 1 - (o + 1))
        else some o := by
    intro ρ
    have hcnt : M + 1 - o = (M - o) + 1 := by omega
    have hcnt' : M + 1 - (o + 1) = M - o := by omega
    rw [hcnt, firstDiffFrom, hcnt']
  have hwf1 : ValueWF8 (cpu.mem (s1 + (o : Int))) := hwf _
  have hwf2 : ValueWF8 (cpu.mem (s2 + (o : Int))) := hwf _
  have hsub : ∀ ρ : Nat → Nat,
      evalV cpu.address_bit_size ρ
        (vsub cpu.address_bit_size
          (ZEXTEND (cpu.mem (s1 + (o : Int))) cpu.address_bit_size)
          (ZEXTEND (cpu.mem (s2 + (o : Int))) cpu.address_bit_size)) =
      wdiff cpu.address_bit_size (rb cpu s1 ρ o) (rb cpu s2 ρ o) := fun ρ =>
    evalV_char_sub _ _ cpu.address_bit_size ρ hW hwf1 hwf2
  rw [strcmpStep.eq_def, Cpu.read_int, Cpu.read_int]
  by_cases hsym : (issymbolic (ZEXTEND (cpu.mem (s1 + (o : Int))) cpu.address_bit_size) ||
      issymbolic (ZEXTEND (cpu.mem (s2 + (o : Int))) cpu.address_bit_size)) = true
  · simp only [hsym, if_true]
    match hret : ret, h with
    | none, h =>
        have hM : o = M := by
          have : o + 1 = M + 1 := h
          omega
        refine ⟨_, rfl, ?_⟩
        intro ρ
        rw [hsub ρ, hwin ρ]
        subst hM
        simp only [Nat.sub_self]
        by_cases req : rb cpu s1 ρ o = rb cpu s2 ρ o
        · rw [if_pos req, req, wdiff_self]
          rfl
        · rw [if_neg req]
    | some r, h =>
        by_cases hr0 : r = .concrete 0
        · subst hr0
          refine ⟨_, rfl, ?_⟩
          have hnone : ∀ ρ : Nat → Nat,
              firstDiffFrom (rb cpu s1 ρ) (rb cpu s2 ρ) (o + 1) (M + 1 - (o + 1)) = none := by
            intro ρ
            match hfd : firstDiffFrom (rb cpu s1 ρ) (rb cpu s2 ρ) (o + 1) (M + 1 - (o + 1)) with
            | none => rfl
            | some j =>
                exfalso
                have hv := h ρ
                rw [hfd] at hv
                have hz : evalV cpu.address_bit_size ρ (Value.concrete 0) = 0 := by
                  simp [evalV]
                rw [hz] at hv
                obtain ⟨_, _, hne, _⟩ := firstDiffFrom_some_spec _ _ _ _ _ hfd
                exact wdiff_ne_zero cpu.address_bit_size hW _ _
                  (rb_nonneg cpu s1 ρ j) (rb_lt cpu s1 ρ j hwf)
                  (rb_nonneg cpu s2 ρ j) (rb_lt cpu s2 ρ j hwf) hne hv.symm
          intro ρ
          rw [hsub ρ, hwin ρ, hnone ρ]
          by_cases req : rb cpu s1 ρ o = rb cpu s2 ρ o
          · rw [if_pos req, req, wdiff_self]
          · rw [if_neg req]
        · have hcond : (!issymbolic r && (r == Value.concrete 0)) = false := by
            cases r with
            | sym e => simp [issymbolic]
            | concrete c =>
                simp only [issymbolic, Bool.not_false, Bool.true_and]
                simp only [beq_eq_false_iff_ne, ne_eq]
                intro hc
                exact hr0 hc
          simp only [hcond, Bool.false_eq_true, if_false]
          rw [vne_not_both_concrete _ _ _ hsym]
          refine ⟨_, rfl, ?_⟩
          intro ρ
          rw [evalV_ITEBV_cexpr]
          have hbcond : evalB ρ ⟨.ne,
              toExpr cpu.address_bit_size
                (ZEXTEND (cpu.mem (s1 + (o : Int))) cpu.address_bit_size),
              toExpr cpu.address_bit_size
                (ZEXTEND (cpu.mem (s2 + (o : Int))) cpu.address_bit_size)⟩ =
              decide (rb cpu s1 ρ o ≠ rb cpu s2 ρ o) := by
            show cmpDenote .ne _ _ = _
            rw [cmpDenote]
            rw [evalE_toExpr, evalE_toExpr,
              evalV_ZEXTEND _ _ ρ hwf1 hW, evalV_ZEXTEND _ _ ρ hwf2 hW]
            unfold rb
            by_cases he : evalV 8 ρ (cpu.mem (s1 + (o : Int))) =
                evalV 8 ρ (cpu.mem (s2 + (o : Int)))
            · simp [he]
            · have h1 : (evalV 8 ρ (cpu.mem (s1 + (o : Int))) !=
                  evalV 8 ρ (cpu.mem (s2 + (o : Int)))) = true := by
                simpa [bne_iff_ne] using he
              have h2 : decide (((evalV 8 ρ (cpu.mem (s1 + (o : Int)))) : Int) ≠
                  ((evalV 8 ρ (cpu.mem (s2 + (o : Int)))) : Int)) = true := by
                rw [decide_eq_true_iff]
                intro hc
                exact he (by exact_mod_cast hc)
              rw [h1, h2]
          rw [hbcond, hwin ρ]
          by_cases req : rb cpu s1 ρ o = rb cpu s2 ρ o
          · rw [if_neg (by simp [req]), if_pos req]
            exact h ρ
          · rw [if_pos (by simp [req]), if_neg req]
            exact hsub ρ
  · -- both bytes concrete
    have hc1 : ∃ v1 : Int, cpu.mem (s1 + (o : Int)) = .concrete v1 := by
      match hb : cpu.mem (s1 + (o : Int)) with
      | .concrete v => exact ⟨v, rfl⟩
      | .sym e => exact absurd (by rw [hb]; simp [ZEXTEND, issymbolic]) hsym
    have hc2 : ∃ v2 : Int, cpu.mem (s2 + (o : Int)) = .concrete v2 := by
      match hb : cpu.mem (s2 + (o : Int)) with
      | .concrete v => exact ⟨v, rfl⟩
      | .sym e => exact absurd (by rw [hb]; simp [ZEXTEND, issymbolic]) hsym
    obtain ⟨v1, hv1⟩ := hc1
    obtain ⟨v2, hv2⟩ := hc2
    rw [hv1] at hwf1
    rw [hv2] at hwf2
    obtain ⟨ha1, ha2⟩ := hwf1
    obtain ⟨hb1, hb2⟩ := hwf2
    have hrb1 : ∀ ρ : Nat → Nat, rb cpu s1 ρ o = v1 :=
      fun ρ => rb_eq_concrete cpu s1 ρ o v1 hv1 ha1 ha2
    have hrb2 : ∀ ρ : Nat → Nat, rb cpu s2 ρ o = v2 :=
      fun ρ => rb_eq_concrete cpu s2 ρ o v2 hv2 hb1 hb2
    rw [hv1, hv2,
      zextend_concrete_byte v1 cpu.address_bit_size hW ha1 ha2,
      zextend_concrete_byte v2 cpu.address_bit_size hW hb1 hb2]
    rw [if_neg (by simp [issymbolic])]
    by_cases hv : v1 = v2
    · rw [if_neg (by simp [hv])]
      match hret : ret, h with
      | none, h =>
          have hM : o = M := by
            have : o + 1 = M + 1 := h
            omega
          refine ⟨_, rfl, ?_⟩
          intro ρ
          rw [hwin ρ, if_pos (by rw [hrb1 ρ, hrb2 ρ]; exact hv)]
          subst hM
          simp only [Nat.sub_self]
          show evalV cpu.address_bit_size ρ (.concrete 0) = _
          simp [evalV, firstDiffFrom]
      | some r, h =>
          refine ⟨r, rfl, ?_⟩
          intro ρ
          rw [hwin ρ, if_pos (by rw [hrb1 ρ, hrb2 ρ]; exact hv)]
          exact h ρ
    · rw [if_pos (by simp [hv])]
      refine ⟨_, rfl, ?_⟩
      intro ρ
      rw [hwin ρ, if_neg (by rw [hrb1 ρ, hrb2 ρ]; exact hv)]
      show evalV cpu.address_bit_size ρ (Value.concrete (v1 - v2)) =
        wdiff cpu.address_bit_size (rb cpu s1 ρ o) (rb cpu s2 ρ o)
      rw [hrb1 ρ, hrb2 ρ]
      rfl

theorem strcmpGo_RepOk (cpu : Cpu) (s1 s2 : Int)
    (hW : 8 ≤ cpu.address_bit_size) (hwf : CpuWF cpu) (M : Nat) :
    ∀ (k : Nat) (ret : Option Value), k ≤ M → RepOk cpu s1 s2 M (k + 1) ret →
      ∃ v : Value, strcmpGo cpu s1 s2 k ret = some v ∧
        RepOk cpu s1 s2 M 0 (some v) := by
  intro k
  induction k with
  | zero =>
      intro ret hk h
      obtain ⟨v, hv, hrep⟩ := strcmpStep_RepOk cpu s1 s2 hW hwf M 0 hk ret h
      exact ⟨v, by rw [strcmpGo, hv], hrep⟩
  | succ k ih =>
      intro ret hk h
      obtain ⟨v, hv, hrep⟩ := strcmpStep_RepOk cpu s1 s2 hW hwf M (k + 1) hk ret h
      obtain ⟨w, hw, hrepw⟩ := ih (some v) (by omega) hrep
      exact ⟨w, by rw [strcmpGo, hv, hw], hrepw⟩

/-- C7: a `strcmp` whose scans terminate always returns a value (never the
Python `None`: the walk reaches offset 0 and assigns a result), and that
value evaluates to 0 under every satisfying assignment exactly when the two
strings are provably identical byte-for-byte up to and including the
(common) terminator window `min z1 z2`. -/
theorem C7_strcmp_zero_iff (state : State) (s1A s2A : Int) (fuel z1 z2 : Nat)
    (hW : 8 ≤ state.cpu.address_bit_size) (hwf : CpuWF state.cpu)
    (hz1 : _find_zero state.cpu state.constraints s1A fuel = some z1)
    (hz2 : _find_zero state.cpu state.constraints s2A fuel = some z2) :
    ∃ v : Value,
      strcmp state (.concrete s1A) (.concrete s2A) fuel = some (state, .ok (some v)) ∧
      ((∀ ρ : Nat → Nat, satC ρ state.constraints = true →
          evalV state.cpu.address_bit_size ρ v = 0) ↔
        (∀ ρ : Nat → Nat, satC ρ state.constraints = true →
          ∀ i : Nat, i ≤ min z1 z2 →
            rb state.cpu s1A ρ i = rb state.cpu s2A ρ i)) := by
  obtain ⟨v, hv, hrep⟩ := strcmpGo_RepOk state.cpu s1A s2A hW hwf (min z1 z2)
    (min z1 z2) none le_rfl rfl
  refine ⟨v, by simp only [strcmp, hz1, hz2, hv], ?_⟩
  constructor
  · intro h0 ρ hρ i hi
    by_contra hne
    have hmz : (match firstDiffFrom (rb state.cpu s1A ρ) (rb state.cpu s2A ρ) 0
        (min z1 z2 + 1 - 0) with
        | some j => wdiff state.cpu.address_bit_size
            (rb state.cpu s1A ρ j) (rb state.cpu s2A ρ j)
        | none => 0) = 0 := by
      rw [← hrep ρ]
      exact h0 ρ hρ
    match hfd : firstDiffFrom (rb state.cpu s1A ρ) (rb state.cpu s2A ρ) 0
        (min z1 z2 + 1 - 0) with
    | none =>
        exact hne ((firstDiffFrom_none_iff _ _ _ _).mp hfd i (by omega) (by omega))
    | some j =>
        rw [hfd] at hmz
        obtain ⟨_, _, hnej, _⟩ := firstDiffFrom_some_spec _ _ _ _ _ hfd
        exact wdiff_ne_zero state.cpu.address_bit_size hW _ _
          (rb_nonneg state.cpu s1A ρ j) (rb_lt state.cpu s1A ρ j hwf)
          (rb_nonneg state.cpu s2A ρ j) (rb_lt state.cpu s2A ρ j hwf) hnej hmz
  · intro hid ρ hρ
    rw [hrep ρ]
    have hnone : firstDiffFrom (rb state.cpu s1A ρ) (rb state.cpu s2A ρ) 0
        (min z1 z2 + 1 - 0) = none :=
      (firstDiffFrom_none_iff _ _ _ _).mpr (fun i h1 h2 => hid ρ hρ i (by omega))
    rw [hnone]

/-- Witness for C7 at the concrete strings "hi" and "h" of the example
state: the comparison never returns `None`, and since the strings are not
identical the returned value is non-zero under the (trivially satisfying)
empty assignment. -/
theorem C7_witness :
    ∃ v : Value,
      strcmp exState (.concrete 100) (.concrete 110) 5 = some (exState, .ok (some v)) ∧
      ((∀ ρ : Nat → Nat, satC ρ exState.constraints = true →
          evalV exState.cpu.address_bit_size ρ v = 0) ↔
        (∀ ρ : Nat → Nat, satC ρ exState.constraints = true →
          ∀ i : Nat, i ≤ min 2 1 →
            rb exState.cpu 100 ρ i = rb exState.cpu 110 ρ i)) :=
  C7_strcmp_zero_iff exState 100 110 5 2 1 (by decide)
    (by
      intro a
      show ValueWF8 (exMem a)
      unfold exMem
      repeat' split
      all_goals exact ⟨by norm_num, by norm_num⟩)
    (by decide) (by decide)

theorem strcpyLoop_sat (cs : List BoolExpr) (cpu : Cpu) (dstA srcA : Int) (T : Nat)
    (ρ : Nat → Nat) (hρ : satC ρ cs = true)
    (hT2 : is_NULL (cpu.mem (srcA + (T : Int))) cs = true)
    (hdisj : ∀ (i j : Nat), i ≤ T → j ≤ T → srcA + (i : Int) ≠ dstA + (j : Int)) :
    ∀ (fuel k : Nat) (cpuK cpu1 : Cpu) (dst1 src1 : Int) (c : Value),
      k ≤ T →
      (∀ a : Int, (∀ j : Nat, j < k → a ≠ dstA + (j : Int)) → cpuK.mem a = cpu.mem a) →
      strcpyLoop cs fuel cpuK (dstA + (k : Int)) (srcA + (k : Int)) =
        some (cpu1, dst1, src1, c) →
      ∃ len : Nat, k ≤ len ∧ len ≤ T ∧
        dst1 = dstA + (len : Int) ∧ src1 = srcA + (len : Int) ∧
        c = cpu.mem (srcA + (len : Int)) ∧
        not_NULL c cs = false ∧
        (∀ a : Int, (∀ j : Nat, j < len → a ≠ dstA + (j : Int)) →
          cpu1.mem a = cpu.mem a) := by
  intro fuel
  induction fuel with
  | zero =>
      intro k cpuK cpu1 dst1 src1 c _ _ h
      exact absurd h (by simp [strcpyLoop])
  | succ fuel ih =>
      intro k cpuK cpu1 dst1 src1 c hk hagree h
      rw [strcpyLoop, Cpu.read_int] at h
      have hread : cpuK.mem (srcA + (k : Int)) = cpu.mem (srcA + (k : Int)) :=
        hagree _ (fun j hj => hdisj k j hk (by omega))
      rw [hread] at h
      by_cases hn : not_NULL (cpu.mem (srcA + (k : Int))) cs = true
      · -- the byte is provably non-null, so the loop copies it; since the
        -- byte at T is provably null and the constraints are satisfiable,
        -- this offset is strictly below T
        have hkT : k < T := by
          rcases Nat.eq_or_lt_of_le hk with rfl | h'
          · exact absurd ⟨hT2, hn⟩ (classifiers_not_both _ cs ρ hρ)
          · exact h'
        rw [if_pos hn] at h
        have e1 : dstA + (k : Int) + 1 = dstA + ((k + 1 : Nat) : Int) := by push_cast; ring
        have e2 : srcA + (k : Int) + 1 = srcA + ((k + 1 : Nat) : Int) := by push_cast; ring
        rw [e1, e2] at h
        obtain ⟨len, h1, h2, h3, h4, h5, h6, h7⟩ :=
          ih (k + 1) (cpuK.write_int (dstA + (k : Int)) (cpu.mem (srcA + (k : Int))) 8)
            cpu1 dst1 src1 c (by omega)
            (by
              intro a ha
              rw [Cpu.write_int]
              simp only
              rw [if_neg (ha k (by omega))]
              exact hagree a (fun j hj => ha j (by omega)))
            h
        exact ⟨len, by omega, h2, h3, h4, h5, h6, h7⟩
      · rw [if_neg hn] at h
        cases h
        refine ⟨k, le_rfl, hk, rfl, rfl, rfl, ?_, hagree⟩
        simpa using hn

/-- The value the ambiguous-tail loop of `strcpy` writes at offset `j`,
expressed over the memory `cpu0` the loop started from: the (possibly
zero-forced) source byte guarded, for every earlier candidate offset, by
that candidate byte being non-zero, with the old destination byte as the
fallback. -/
def cellVal (cpu0 : Cpu) (dst src : Int) (ap : Nat → Bool) (j : Nat) : Value :=
  ((List.range j).filter ap).foldr
    (fun (z : Nat) sv => ITEBV 8 (vne 8 (cpu0.mem (src + (z : Int))) (.concrete 0)) sv
      (cpu0.mem (dst + (j : Int))))
    (if ap j then
      ITEBV 8 (vne 8 (cpu0.mem (src + (j : Int))) (.concrete 0))
        (cpu0.mem (src + (j : Int))) (.concrete 0)
      else cpu0.mem (src + (j : Int)))

theorem forced_base_eval_zero (B : Value) (ρ : Nat → Nat)
    (hz : evalV 8 ρ B = 0) :
    evalV 8 ρ (ITEBV 8 (vne 8 B (.concrete 0)) B (.concrete 0)) = 0 := by
  cases B with
  | concrete v =>
      by_cases hv : v = 0
      · subst hv
        show evalV 8 ρ (ITEBV 8 (.cbool (decide ((0 : Int) ≠ 0))) _ _) = 0
        norm_num
        rfl
      · show evalV 8 ρ (ITEBV 8 (.cbool (decide (v ≠ 0))) _ _) = 0
        rw [show (decide (v ≠ 0)) = true by simp [hv]]
        exact hz
  | sym e =>
      show evalV 8 ρ (ITEBV 8 (.cexpr ⟨.ne, e, .const 8 0⟩) _ _) = 0
      rw [evalV_ITEBV_cexpr]
      have hc : evalB ρ ⟨.ne, e, .const 8 0⟩ = false := by
        simp only [evalB, cmpDenote]
        have : evalE ρ e = 0 := hz
        simp [this, evalE]
      rw [hc]
      simp [evalV]

theorem foldr_wrap_eval (cpu0 : Cpu) (src : Int) (dv : Value) (ρ : Nat → Nat) :
    ∀ (L : List Nat),
      (∀ z ∈ L, evalV 8 ρ (cpu0.mem (src + (z : Int))) ≠ 0) →
      ∀ sv : Value,
        evalV 8 ρ (L.foldr
          (fun (z : Nat) acc => ITEBV 8 (vne 8 (cpu0.mem (src + (z : Int))) (.concrete 0)) acc dv)
          sv) = evalV 8 ρ sv := by
  intro L
  induction L with
  | nil => intro _ sv; rfl
  | cons z L ih =>
      intro hL sv
      rw [List.foldr_cons]
      have hz := hL z (by simp)
      match hB : cpu0.mem (src + (z : Int)) with
      | .concrete v =>
          rw [hB] at hz
          have hv : v ≠ 0 := by
            intro hv0
            apply hz
            rw [hv0]
            simp [evalV]
          show evalV 8 ρ (ITEBV 8 (.cbool (decide (v ≠ 0))) _ _) = _
          rw [show (decide (v ≠ 0)) = true by simp [hv]]
          exact ih (fun u hu => hL u (by simp [hu])) sv
      | .sym e =>
          rw [hB] at hz
          show evalV 8 ρ (ITEBV 8 (.cexpr ⟨.ne, e, .const 8 0⟩) _ _) = _
          rw [evalV_ITEBV_cexpr]
          have hc : evalB ρ ⟨.ne, e, .const 8 0⟩ = true := by
            simp only [evalB, cmpDenote, evalE]
            have : evalE ρ e ≠ 0 := hz
            simpa using this
          rw [hc]
          exact ih (fun u hu => hL u (by simp [hu])) sv

theorem foldr_congr_mem {α β : Type} (L : List α) (f g : α → β → β) (b : β)
    (h : ∀ z ∈ L, ∀ acc : β, f z acc = g z acc) : L.foldr f b = L.foldr g b := by
  induction L with
  | nil => rfl
  | cons z L ih =>
      rw [List.foldr_cons, List.foldr_cons, ih (fun u hu acc => h u (by simp [hu]) acc),
        h z (by simp)]

theorem strcpyTail_succ_pop (cs : List BoolExpr) (dst src : Int) (o : Nat)
    (cpu : Cpu) (zeros A : List Nat) (hz : zeros = A ++ [o + 1]) :
    strcpyTail cs dst src (o + 1) cpu zeros =
      strcpyTail cs dst src o
        (cpu.write_int (dst + ((o + 1 : Nat) : Int))
          (A.foldr
            (fun (zero : Nat) sv =>
              ITEBV 8 (vne 8 (cpu.read_int (src + (zero : Int)) 8) (.concrete 0)) sv
                (cpu.read_int (dst + ((o + 1 : Nat) : Int)) 8))
            (ITEBV 8 (vne 8 (cpu.read_int (src + ((o + 1 : Nat) : Int)) 8) (.concrete 0))
              (cpu.read_int (src + ((o + 1 : Nat) : Int)) 8) (.concrete 0))) 8)
        A := by
  subst hz
  rw [strcpyTail, List.getLast?_concat]
  simp only [List.dropLast_concat, eq_self_iff_true, if_true]

theorem strcpyTail_succ_nopop (cs : List BoolExpr) (dst src : Int) (o : Nat)
    (cpu : Cpu) (zeros : List Nat) (last : Nat)
    (hgl : zeros.getLast? = some last) (hlast : last ≠ o + 1) :
    strcpyTail cs dst src (o + 1) cpu zeros =
      strcpyTail cs dst src o
        (cpu.write_int (dst + ((o + 1 : Nat) : Int))
          (zeros.foldr
            (fun (zero : Nat) sv =>
              ITEBV 8 (vne 8 (cpu.read_int (src + (zero : Int)) 8) (.concrete 0)) sv
                (cpu.read_int (dst + ((o + 1 : Nat) : Int)) 8))
            (cpu.read_int (src + ((o + 1 : Nat) : Int)) 8)) 8)
        zeros := by
  rw [strcpyTail, hgl]
  simp only [if_neg hlast]

theorem strcpyTail_zero_pop (cs : List BoolExpr) (dst src : Int)
    (cpu : Cpu) (zeros A : List Nat) (hz : zeros = A ++ [0]) :
    strcpyTail cs dst src 0 cpu zeros =
      (cpu.write_int (dst + ((0 : Nat) : Int))
        (A.foldr
          (fun (zero : Nat) sv =>
            ITEBV 8 (vne 8 (cpu.read_int (src + (zero : Int)) 8) (.concrete 0)) sv
              (cpu.read_int (dst + ((0 : Nat) : Int)) 8))
          (ITEBV 8 (vne 8 (cpu.read_int (src + ((0 : Nat) : Int)) 8) (.concrete 0))
            (cpu.read_int (src + ((0 : Nat) : Int)) 8) (.concrete 0))) 8,
       true) := by
  subst hz
  rw [strcpyTail, List.getLast?_concat]
  simp only [List.dropLast_concat, eq_self_iff_true, if_true]

theorem strcpyTail_spec (cs : List BoolExpr) (dst src : Int) (N : Nat)
    (ap : Nat → Bool) (cpu0 : Cpu) (hap0 : ap 0 = true)
    (hds : ∀ (z o : Nat), z ≤ N → o ≤ N → src + (z : Int) ≠ dst + (o : Int)) :
    ∀ (o : Nat) (cpu : Cpu), o ≤ N →
      (∀ z : Nat, z ≤ N → cpu.mem (src + (z : Int)) = cpu0.mem (src + (z : Int))) →
      (∀ z : Nat, z ≤ o → cpu.mem (dst + (z : Int)) = cpu0.mem (dst + (z : Int))) →
      (strcpyTail cs dst src o cpu ((List.range (o + 1)).filter ap)).2 = true ∧
      (∀ j : Nat, j ≤ o →
        (strcpyTail cs dst src o cpu ((List.range (o + 1)).filter ap)).1.mem
          (dst + (j : Int)) = cellVal cpu0 dst src ap j) ∧
      (∀ a : Int, (∀ j : Nat, j ≤ o → a ≠ dst + (j : Int)) →
        (strcpyTail cs dst src o cpu ((List.range (o + 1)).filter ap)).1.mem a =
          cpu.mem a) := by
  intro o
  induction o with
  | zero =>
      intro cpu hoN hsrc hdst
      have hform : (List.range 1).filter ap = [] ++ [0] := by
        simp [List.range_succ, hap0]
      rw [strcpyTail_zero_pop cs dst src cpu _ [] hform]
      refine ⟨rfl, ?_, ?_⟩
      · intro j hj
        obtain rfl : j = 0 := by omega
        show (if dst + ((0 : Nat) : Int) = dst + ((0 : Nat) : Int) then _ else _) = _
        rw [if_pos rfl]
        unfold cellVal
        simp only [List.range_zero, List.filter_nil, List.foldr_nil, hap0, if_true]
        simp only [Cpu.read_int]
        rw [hsrc 0 hoN]
      · intro a ha
        show (if a = dst + ((0 : Nat) : Int) then _ else _) = _
        rw [if_neg (ha 0 le_rfl)]
  | succ o ih =>
      intro cpu hoN hsrc hdst
      have hmem0 : 0 ∈ (List.range (o + 1)).filter ap := by
        rw [List.mem_filter]
        exact ⟨by simp, hap0⟩
      have hAne : (List.range (o + 1)).filter ap ≠ [] := List.ne_nil_of_mem hmem0
      by_cases hao : ap (o + 1)
      · -- offset o+1 is itself a candidate: forced-zero base, then pop
        have hsplit : (List.range (o + 1 + 1)).filter ap =
            (List.range (o + 1)).filter ap ++ [o + 1] := by
          rw [List.range_succ, List.filter_append]
          simp [hao]
        rw [hsplit, strcpyTail_succ_pop cs dst src o cpu _ _ rfl]
        have hwv : ((List.range (o + 1)).filter ap).foldr
            (fun (zero : Nat) sv =>
              ITEBV 8 (vne 8 (cpu.read_int (src + (zero : Int)) 8) (.concrete 0)) sv
                (cpu.read_int (dst + ((o + 1 : Nat) : Int)) 8))
            (ITEBV 8 (vne 8 (cpu.read_int (src + ((o + 1 : Nat) : Int)) 8) (.concrete 0))
              (cpu.read_int (src + ((o + 1 : Nat) : Int)) 8) (.concrete 0)) =
            cellVal cpu0 dst src ap (o + 1) := by
          unfold cellVal
          rw [if_pos hao]
          simp only [Cpu.read_int]
          rw [hsrc (o + 1) hoN]
          apply foldr_congr_mem
          intro z hz acc
          have hzN : z ≤ N := by
            have h1 := List.mem_filter.mp hz
            have h2 := List.mem_range.mp h1.1
            omega
          rw [hsrc z hzN, hdst (o + 1) le_rfl]
        rw [hwv]
        obtain ⟨ih1, ih2, ih3⟩ := ih
          (cpu.write_int (dst + ((o + 1 : Nat) : Int)) (cellVal cpu0 dst src ap (o + 1)) 8)
          (by omega)
          (by
            intro z hz
            show (if src + (z : Int) = dst + ((o + 1 : Nat) : Int) then _ else _) = _
            rw [if_neg (hds z (o + 1) hz hoN)]
            exact hsrc z hz)
          (by
            intro z hz
            show (if dst + (z : Int) = dst + ((o + 1 : Nat) : Int) then _ else _) = _
            rw [if_neg (by intro he; omega)]
            exact hdst z (by omega))
        refine ⟨ih1, ?_, ?_⟩
        · intro j hj
          rcases Nat.lt_or_ge j (o + 1) with hlt | hge
          · exact ih2 j (by omega)
          · obtain rfl : j = o + 1 := by omega
            rw [ih3 (dst + ((o + 1 : Nat) : Int)) (fun j' hj' => by intro he; omega)]
            show (if dst + ((o + 1 : Nat) : Int) = dst + ((o + 1 : Nat) : Int)
              then _ else _) = _
            rw [if_pos rfl]
        · intro a ha
          rw [ih3 a (fun j hj => ha j (by omega))]
          show (if a = dst + ((o + 1 : Nat) : Int) then _ else _) = _
          rw [if_neg (ha (o + 1) le_rfl)]
      · -- offset o+1 is not a candidate: the list is unchanged, no pop
        have hsplit : (List.range (o + 1 + 1)).filter ap =
            (List.range (o + 1)).filter ap := by
          rw [List.range_succ, List.filter_append]
          simp [hao]
        have hgl : ∃ last : Nat, ((List.range (o + 1)).filter ap).getLast? = some last ∧
            last ≠ o + 1 := by
          refine ⟨((List.range (o + 1)).filter ap).getLast hAne,
            List.getLast?_eq_getLast _ hAne, ?_⟩
          have hmem := List.getLast_mem hAne
          have h1 := List.mem_filter.mp hmem
          have h2 := List.mem_range.mp h1.1
          omega
        obtain ⟨last, hgl, hlast⟩ := hgl
        rw [hsplit, strcpyTail_succ_nopop cs dst src o cpu _ last hgl hlast]
        have hwv : ((List.range (o + 1)).filter ap).foldr
            (fun (zero : Nat) sv =>
              ITEBV 8 (vne 8 (cpu.read_int (src + (zero : Int)) 8) (.concrete 0)) sv
                (cpu.read_int (dst + ((o + 1 : Nat) : Int)) 8))
            (cpu.read_int (src + ((o + 1 : Nat) : Int)) 8) =
            cellVal cpu0 dst src ap (o + 1) := by
          unfold cellVal
          rw [if_neg (by simp [hao])]
          simp only [Cpu.read_int]
          rw [hsrc (o + 1) hoN]
          apply foldr_congr_mem
          intro z hz acc
          have hzN : z ≤ N := by
            have h1 := List.mem_filter.mp hz
            have h2 := List.mem_range.mp h1.1
            omega
          rw [hsrc z hzN, hdst (o + 1) le_rfl]
        rw [hwv]
        obtain ⟨ih1, ih2, ih3⟩ := ih
          (cpu.write_int (dst + ((o + 1 : Nat) : Int)) (cellVal cpu0 dst src ap (o + 1)) 8)
          (by omega)
          (by
            intro z hz
            show (if src + (z : Int) = dst + ((o + 1 : Nat) : Int) then _ else _) = _
            rw [if_neg (hds z (o + 1) hz hoN)]
            exact hsrc z hz)
          (by
            intro z hz
            show (if dst + (z : Int) = dst + ((o + 1 : Nat) : Int) then _ else _) = _
            rw [if_neg (by intro he; omega)]
            exact hdst z (by omega))
        refine ⟨ih1, ?_, ?_⟩
        · intro j hj
          rcases Nat.lt_or_ge j (o + 1) with hlt | hge
          · exact ih2 j (by omega)
          · obtain rfl : j = o + 1 := by omega
            rw [ih3 (dst + ((o + 1 : Nat) : Int)) (fun j' hj' => by intro he; omega)]
            show (if dst + ((o + 1 : Nat) : Int) = dst + ((o + 1 : Nat) : Int)
              then _ else _) = _
            rw [if_pos rfl]
        · intro a ha
          rw [ih3 a (fun j hj => ha j (by omega))]
          show (if a = dst + ((o + 1 : Nat) : Int) then _ else _) = _
          rw [if_neg (ha (o + 1) le_rfl)]

theorem cellVal_eval_zero (cpu0 : Cpu) (dst src : Int) (ap : Nat → Bool)
    (ρ : Nat → Nat) (j : Nat) (hapj : ap j = true)
    (hz : evalV 8 ρ (cpu0.mem (src + (j : Int))) = 0)
    (hmin : ∀ z : Nat, z < j → ap z = true →
      evalV 8 ρ (cpu0.mem (src + (z : Int))) ≠ 0) :
    evalV 8 ρ (cellVal cpu0 dst src ap j) = 0 := by
  unfold cellVal
  rw [if_pos hapj]
  rw [foldr_wrap_eval cpu0 src (cpu0.mem (dst + (j : Int))) ρ _
    (by
      intro z hzm
      have h1 := List.mem_filter.mp hzm
      have h2 := List.mem_range.mp h1.1
      exact hmin z h2 h1.2)]
  exact forced_base_eval_zero _ ρ hz

/-- C2 (amended): after every successful `strcpy` into a destination
disjoint from the source window, and for every assignment satisfying the
path constraints, the destination holds a byte that evaluates to zero at
some offset no later than the source's definite (forced) terminator offset.
(The offset may depend on the assignment: no single destination byte is in
general provably null, see the counterexample.) -/
theorem C2_terminator_guarantee (state : State) (dstA srcA : Int)
    (fuel fuel2 T : Nat) (st' : State) (r : Value) (ρ : Nat → Nat)
    (hρ : satC ρ state.constraints = true)
    (hT : _find_zero state.cpu state.constraints srcA fuel2 = some T)
    (hdisj : ∀ (i j : Nat), i ≤ T → j ≤ T → srcA + (i : Int) ≠ dstA + (j : Int))
    (hok : strcpy state (.concrete dstA) (.concrete srcA) fuel = some (st', .ok r)) :
    ∃ j : Nat, j ≤ T ∧ evalV 8 ρ (st'.cpu.mem (dstA + (j : Int))) = 0 := by
  obtain ⟨hTlt, hTnull⟩ := _find_zero_spec state.cpu state.constraints srcA fuel2 T hT
  simp only [strcpy] at hok
  cases hl : strcpyLoop state.constraints fuel state.cpu dstA srcA with
  | none => rw [hl] at hok; exact absurd hok (by simp)
  | some q =>
    obtain ⟨cpu1, dst1, src1, c⟩ := q
    rw [hl] at hok
    have hl0 : strcpyLoop state.constraints fuel state.cpu
        (dstA + ((0 : Nat) : Int)) (srcA + ((0 : Nat) : Int)) =
        some (cpu1, dst1, src1, c) := by simpa using hl
    obtain ⟨len, _, hlenT, hdst1, hsrc1, hc, hcnn, hagr⟩ :=
      strcpyLoop_sat state.constraints state.cpu dstA srcA T ρ hρ hTnull hdisj fuel 0
        state.cpu cpu1 dst1 src1 c (by omega) (fun a _ => rfl) hl0
    rcases hN : is_NULL c state.constraints with _ | _
    · -- ambiguous-terminator phase
      simp only [hN, Bool.false_eq_true, if_false] at hok
      cases hz : _find_zeros cpu1 state.constraints src1 fuel with
      | none => rw [hz] at hok; exact absurd hok (by simp)
      | some zeros =>
        rw [hz] at hok
        obtain ⟨N, hNlt, hNnull, hform⟩ :=
          _find_zeros_spec cpu1 state.constraints src1 fuel zeros hz
        have htrans : ∀ o : Nat, len + o ≤ T →
            cpu1.mem (src1 + (o : Int)) =
              state.cpu.mem (srcA + ((len + o : Nat) : Int)) := by
          intro o ho
          rw [hsrc1]
          have e : srcA + ((len : Nat) : Int) + (o : Int) =
              srcA + ((len + o : Nat) : Int) := by push_cast; ring
          rw [e]
          exact hagr _ (fun j hj => hdisj (len + o) j ho (by omega))
        have hbound : ∀ o : Nat, o ≤ N → len + o ≤ T := by
          intro o
          induction o with
          | zero => intro _; omega
          | succ o iho =>
              intro hoN
              have h1 : len + o ≤ T := iho (by omega)
              have h2 : is_NULL (cpu1.mem (src1 + (o : Int))) state.constraints = false :=
                hNlt o (by omega)
              rw [htrans o h1] at h2
              rcases Nat.eq_or_lt_of_le h1 with he | hlt
              · rw [he] at h2
                rw [h2] at hTnull
                exact absurd hTnull Bool.noConfusion
              · omega
        have hlenN : len + N ≤ T := hbound N le_rfl
        have hapN : appendCond cpu1 state.constraints src1 N = true :=
          is_NULL_appendCond _ _ _ _ ρ hρ hNnull
        have hgl : zeros.getLast? = some N := by
          rw [hform, List.range_succ, List.filter_append]
          simp [hapN]
        have hb0 : cpu1.mem (src1 + ((0 : Nat) : Int)) = c := by
          rw [htrans 0 (by omega), hc]
          norm_num
        have hap0 : appendCond cpu1 state.constraints src1 0 = true := by
          unfold appendCond
          rw [hb0]
          match c, hcnn, hN with
          | .concrete v, hcnn, hN =>
              simp only [not_NULL, bne_eq_false_iff_eq] at hcnn
              rw [hcnn] at hN
              simp [is_NULL] at hN
          | .sym e, hcnn, hN =>
              simpa [not_NULL] using hcnn
        have hds : ∀ (z o : Nat), z ≤ N → o ≤ N →
            src1 + (z : Int) ≠ dst1 + (o : Int) := by
          intro z o hzN hoN
          rw [hsrc1, hdst1]
          have e1 : srcA + ((len : Nat) : Int) + (z : Int) =
              srcA + ((len + z : Nat) : Int) := by push_cast; ring
          have e2 : dstA + ((len : Nat) : Int) + (o : Int) =
              dstA + ((len + o : Nat) : Int) := by push_cast; ring
          rw [e1, e2]
          exact hdisj (len + z) (len + o) (by omega) (by omega)
        obtain ⟨hts1, hts2, hts3⟩ := strcpyTail_spec state.constraints dst1 src1 N
          (appendCond cpu1 state.constraints src1) cpu1 hap0 hds N cpu1 le_rfl
          (fun z _ => rfl) (fun z _ => rfl)
        rw [hform] at hok
        simp only [hgl] at hok
        rw [hform] at hgl
        simp only [hgl] at hok
        match hteq : strcpyTail state.constraints dst1 src1 N cpu1
            ((List.range (N + 1)).filter (appendCond cpu1 state.constraints src1)) with
        | (cpu2, b) =>
          rw [hteq] at hts1
          simp only at hts1
          subst hts1
          simp only [hteq] at hok
          cases hok
          have hP : ∃ z : Nat, appendCond cpu1 state.constraints src1 z = true ∧
              evalV 8 ρ (cpu1.mem (src1 + (z : Int))) = 0 :=
            ⟨N, hapN, is_NULL_eval _ _ ρ hρ hNnull⟩
          have hjN : Nat.find hP ≤ N := Nat.find_min' hP ⟨hapN, is_NULL_eval _ _ ρ hρ hNnull⟩
          obtain ⟨hapj, hzj⟩ := Nat.find_spec hP
          refine ⟨len + Nat.find hP, by omega, ?_⟩
          have haddr : dstA + ((len + Nat.find hP : Nat) : Int) =
              dst1 + ((Nat.find hP : Nat) : Int) := by
            rw [hdst1]; push_cast; ring
          show evalV 8 ρ (cpu2.mem (dstA + ((len + Nat.find hP : Nat) : Int))) = 0
          rw [haddr]
          have hcell := hts2 (Nat.find hP) hjN
          rw [hteq] at hcell
          simp only at hcell
          rw [hcell]
          exact cellVal_eval_zero cpu1 dst1 src1 _ ρ (Nat.find hP) hapj hzj
            (fun z hzj' hapz h0 => Nat.find_min hP hzj' ⟨hapz, h0⟩)
    · -- definite terminator: a concrete zero is written at the copy end
      simp only [hN, if_true] at hok
      cases hok
      refine ⟨len, hlenT, ?_⟩
      show evalV 8 ρ ((cpu1.write_int dst1 (.concrete 0) 8).mem (dstA + ((len : Nat) : Int))) = 0
      simp only [Cpu.write_int]
      rw [if_pos (by rw [hdst1])]
      simp [evalV]

/-- Witness for C2: copying the empty string leaves a concrete zero at the
destination, offset 0 = the source terminator offset. -/
theorem C2_witness :
    satC (fun _ => 0) [] = true ∧
    ∃ j : Nat, j ≤ 0 ∧
      evalV 8 (fun _ => 0)
        ((⟨⟨64, fun a => if a = 200 then Value.concrete 0 else Value.concrete 0⟩, []⟩ :
          State).cpu.mem ((200 : Int) + (j : Int))) = 0 :=
  ⟨rfl,
    C2_terminator_guarantee ⟨⟨64, fun _ => .concrete 0⟩, []⟩ 200 100 5 5 0
      ⟨⟨64, fun a => if a = 200 then Value.concrete 0 else Value.concrete 0⟩, []⟩
      (.concrete 200) (fun _ => 0) rfl (by decide)
      (by intro i j hi hj; omega) rfl⟩

/-- Example memory with an ambiguous byte: a free symbolic byte at 100, a
concrete terminator at 101, the concrete filler 5 everywhere else
(including the whole destination region). -/
def memS2 : Int → Value := fun a =>
  if a = 100 then .sym (.var 0) else if a = 101 then .concrete 0 else .concrete 5

/-- Counterexample for C2 as stated: copying the string at 100 (an
unconstrained symbolic byte, then a concrete zero; terminator offset 1) to
the destination 200 succeeds, yet no destination byte within offset 1 is
provably null — the cell at 200 evaluates to the symbolic byte and the cell
at 201 falls back to the old destination byte 5 whenever the symbolic byte
is zero. -/
theorem C2_counterexample :
    _find_zero ⟨64, memS2⟩ [] 100 10 = some 1 ∧
    (strcpy ⟨⟨64, memS2⟩, []⟩ (.concrete 200) (.concrete 100) 10).map
      (fun p => p.2) = some (.ok (.concrete 200)) ∧
    ¬ ∃ j : Nat, j ≤ 1 ∧
      (strcpy ⟨⟨64, memS2⟩, []⟩ (.concrete 200) (.concrete 100) 10).map
        (fun p => is_NULL (p.1.cpu.mem ((200 : Int) + (j : Int))) []) = some true := by
  refine ⟨by set_option maxRecDepth 100000 in decide,
    by set_option maxRecDepth 100000 in decide, ?_⟩
  rintro ⟨j, hj, hmap⟩
  interval_cases j
  · have h0 : (strcpy ⟨⟨64, memS2⟩, []⟩ (.concrete 200) (.concrete 100) 10).map
        (fun p => is_NULL (p.1.cpu.mem ((200 : Int) + ((0 : Nat) : Int))) []) =
        some false := by set_option maxRecDepth 100000 in decide
    rw [h0] at hmap
    exact absurd hmap (by simp)
  · have h1 : (strcpy ⟨⟨64, memS2⟩, []⟩ (.concrete 200) (.concrete 100) 10).map
        (fun p => is_NULL (p.1.cpu.mem ((200 : Int) + ((1 : Nat) : Int))) []) =
        some false := by set_option maxRecDepth 100000 in decide
    rw [h1] at hmap
    exact absurd hmap (by simp)

end Models
